import Mathlib

/-
Verification development for the UI core of the `stylish_example` repository
(`src/ui/mod.rs` and `src/ui/layout.rs`).

The Rust code is shallowly embedded: pure layout computations become Lean
functions over `Int` (i32 is modelled as `Int`; arithmetic overflow is not
modelled), stateful Manager operations become explicit state-passing
functions, and fallible operations (`unwrap` on file handles) return
`Option`, where `none` marks a panic.

External collaborators (the `stylish` crate's node store, query engine,
style-rule store and parser, and the filesystem) are modelled as explicit
inputs: query results become list parameters, the style store becomes an
association list, the parser becomes a function parameter, and the
filesystem becomes a pair of partial maps.
-/

set_option maxHeartbeats 1000000

namespace StylishUI

/-- Draw rectangle, as in `stylish::Rect` (fields are i32 in the source,
modelled as `Int`). -/
structure Rect where
  x : Int
  y : Int
  width : Int
  height : Int
deriving Repr, DecidableEq

/-- The optional style properties consulted by the layout engines through
`get_value` in `src/ui/layout.rs`; an absent key yields `none`. -/
structure LProps where
  x : Option Int := none
  y : Option Int := none
  width : Option Int := none
  height : Option Int := none
  min_width : Option Int := none
  min_height : Option Int := none
  max_width : Option Int := none
  max_height : Option Int := none
  width_clip : Option Int := none
  height_clip : Option Int := none
  auto_size : Option Bool := none
  padding : Option Int := none
deriving Repr, DecidableEq

/-- Per-node layout scratch state, as in `stylish::RenderObject`:
draw rectangle plus min/max size hints; `props` stands for the property
lookups `obj.get_value` performed on this object. -/
structure RenderObject where
  props : LProps
  draw_rect : Rect
  min_size : Int × Int
  max_size : Option Int × Option Int
deriving Repr, DecidableEq

/-- First half of `apply_clip` (layout.rs lines 173-180): clip the
horizontal extent against the `width_clip` margin of the parent. -/
def clipX (obj parent : RenderObject) : RenderObject :=
  let wc := obj.props.width_clip.getD 0
  let r0 := obj.draw_rect
  let r1 := if r0.x < wc then { r0 with width := r0.width + (r0.x - wc), x := 0 } else r0
  let r2 :=
    if r1.x + r1.width > parent.draw_rect.width - wc then
      { r1 with width := parent.draw_rect.width - wc - r1.x }
    else r1
  { obj with draw_rect := r2 }

/-- Second half of `apply_clip` (layout.rs lines 183-190): clip the
vertical extent against the `height_clip` margin of the parent. -/
def clipY (obj parent : RenderObject) : RenderObject :=
  let hc := obj.props.height_clip.getD 0
  let r0 := obj.draw_rect
  let r1 := if r0.y < hc then { r0 with height := r0.height + (r0.y - hc), y := 0 } else r0
  let r2 :=
    if r1.y + r1.height > parent.draw_rect.height - hc then
      { r1 with height := parent.draw_rect.height - hc - r1.y }
    else r1
  { obj with draw_rect := r2 }

/-- The function `apply_clip` of layout.rs: the x half followed by the
y half, exactly as the source runs its four `if` statements in order. -/
def apply_clip (obj parent : RenderObject) : RenderObject :=
  clipY (clipX obj parent) parent

/-- The sizing part of `Clipped::pre_position_child` (identical to
`Padded::pre_position_child`): rect from explicit x/y and width/height
falling back to min variants, plus min/max size hints. -/
def clipped_sizing (obj : RenderObject) : RenderObject :=
  let width := obj.props.width
  let height := obj.props.height
  let dr : Rect :=
    { x := obj.props.x.getD 0
      y := obj.props.y.getD 0
      width := (width.orElse fun _ => obj.props.min_width).getD 0
      height := (height.orElse fun _ => obj.props.min_height).getD 0 }
  { obj with
      draw_rect := dr
      min_size := (dr.width, dr.height)
      max_size := (width.orElse fun _ => obj.props.max_width,
                   height.orElse fun _ => obj.props.max_height) }

/-- `Clipped::pre_position_child`: sizing, then `apply_clip`. -/
def Clipped.pre_position_child (obj parent : RenderObject) : RenderObject :=
  apply_clip (clipped_sizing obj) parent

/-- `Clipped::post_position_child`: just `apply_clip`. -/
def Clipped.post_position_child (obj parent : RenderObject) : RenderObject :=
  apply_clip obj parent

/-- Engine state of `Rows` (layout.rs): running height plus the
`auto_size` flag read at construction (`unwrap_or(true)`). -/
structure RowsEngine where
  height : Int
  adjust : Bool
deriving Repr, DecidableEq

/-- `Rows::new`: reads `auto_size` from the container object. -/
def RowsEngine.new (obj : RenderObject) : RowsEngine :=
  { height := 0, adjust := obj.props.auto_size.getD true }

/-- `Rows::pre_position_child`: place the child at the running offset,
spanning the parent's width, with its own `height` property. -/
def rows_pre (s : RowsEngine) (obj parent : RenderObject) : RenderObject :=
  { obj with
      draw_rect :=
        { x := 0
          y := s.height
          width := parent.draw_rect.width
          height := obj.props.height.getD 0 } }

/-- `Rows::post_position_child`: accrue the child's final height. -/
def rows_post (s : RowsEngine) (obj : RenderObject) : RowsEngine :=
  { s with height := s.height + obj.draw_rect.height }

/-- `Rows::finalize_layout`: set the container height to the accumulated
total when `adjust` is set. -/
def rows_finalize (s : RowsEngine) (obj : RenderObject) : RenderObject :=
  if s.adjust then { obj with draw_rect := { obj.draw_rect with height := s.height } } else obj

/-- One layout pass over a `Rows` container with leaf children, following
the traversal protocol of the spec: `pre_position_child`, recurse (a no-op
for leaves), `post_position_child` for each child in order, then
`finalize_layout` on the container. Returns the resized container and the
children's placed render objects. -/
def rows_layout (container : RenderObject) (children : List RenderObject) :
    RenderObject × List RenderObject :=
  let st0 := RowsEngine.new container
  let res := children.foldl
    (fun (acc : RowsEngine × List RenderObject) c =>
      let c1 := rows_pre acc.1 c container
      (rows_post acc.1 c1, acc.2 ++ [c1]))
    (st0, ([] : List RenderObject))
  (rows_finalize res.1 container, res.2)

/-- A leaf child whose only set property is `height`. -/
def rowsChild (h : Int) : RenderObject :=
  { props := { height := some h }
    draw_rect := { x := 0, y := 0, width := 0, height := 0 }
    min_size := (0, 0)
    max_size := (none, none) }

/-- A `Rows` container with no properties set (`auto_size` unset) and the
given current draw rectangle. -/
def rowsContainer (r : Rect) : RenderObject :=
  { props := {}
    draw_rect := r
    min_size := (0, 0)
    max_size := (none, none) }

/-- Child object used by the C2 counterexample: `width_clip = 5`, current
rect starting at x = 2 with width 10, inside the left margin strip. -/
def clipObjEx : RenderObject :=
  { props := { width_clip := some 5 }
    draw_rect := { x := 2, y := 0, width := 10, height := 5 }
    min_size := (0, 0)
    max_size := (none, none) }

/-- Parent object used by the C2 counterexample. -/
def clipParentEx : RenderObject :=
  { props := {}
    draw_rect := { x := 0, y := 0, width := 20, height := 30 }
    min_size := (0, 0)
    max_size := (none, none) }

/-- C2 counterexample: in `Clipped::post_position_child` with
`width_clip = 5`, a child whose rect starts at x = 2 ends up at x = 0,
strictly inside the clip margin, so the clipped rectangle does cross the
`width_clip` margin on the left edge. -/
theorem c2_clipped_margin_counterexample :
    (Clipped.post_position_child clipObjEx clipParentEx).draw_rect.x = 0 ∧
    ¬ clipObjEx.props.width_clip.getD 0 ≤
        (Clipped.post_position_child clipObjEx clipParentEx).draw_rect.x := by
  decide

/-- C2 amended: both `pre_position_child` and `post_position_child` of
`Clipped` pass the rectangle through `apply_clip`; after clipping, the
right edge never extends past the parent's width minus `width_clip` and
the bottom edge never past the parent's height minus `height_clip`; an
extent crossing the left (top) margin has its width (height) reduced by
the overhang but its position is set to 0 rather than the margin, so the
left (top) edge may still lie inside the margin. -/
theorem c2_clipped_clip_behavior (obj parent : RenderObject) :
    Clipped.pre_position_child obj parent = apply_clip (clipped_sizing obj) parent ∧
    Clipped.post_position_child obj parent = apply_clip obj parent ∧
    (apply_clip obj parent).draw_rect.x + (apply_clip obj parent).draw_rect.width ≤
      parent.draw_rect.width - obj.props.width_clip.getD 0 ∧
    (apply_clip obj parent).draw_rect.y + (apply_clip obj parent).draw_rect.height ≤
      parent.draw_rect.height - obj.props.height_clip.getD 0 ∧
    (apply_clip obj parent).draw_rect.x =
      (if obj.draw_rect.x < obj.props.width_clip.getD 0 then 0 else obj.draw_rect.x) ∧
    (apply_clip obj parent).draw_rect.y =
      (if obj.draw_rect.y < obj.props.height_clip.getD 0 then 0 else obj.draw_rect.y) := by
  refine ⟨rfl, rfl, ?_, ?_, ?_, ?_⟩ <;>
    simp only [apply_clip, clipX, clipY] <;> split_ifs <;> simp_all <;> omega

/-- C8: a `Rows` container with `auto_size` unset and three leaf children
of heights 10, 20 and 30: each child is placed at x = 0 spanning the
parent's width, the y offsets are 0, 10 and 30, and `finalize_layout`
sets the container height to 60. -/
theorem c8_rows_scenario (r : Rect) :
    ((rows_layout (rowsContainer r) [rowsChild 10, rowsChild 20, rowsChild 30]).2.map
        (fun o => o.draw_rect)) =
      [{ x := 0, y := 0, width := r.width, height := 10 },
       { x := 0, y := 10, width := r.width, height := 20 },
       { x := 0, y := 30, width := r.width, height := 30 }] ∧
    (rows_layout (rowsContainer r) [rowsChild 10, rowsChild 20, rowsChild 30]).1.draw_rect.height
      = 60 := by
  constructor <;>
    simp [rows_layout, rows_pre, rows_post, rows_finalize, RowsEngine.new, rowsChild,
      rowsContainer]

/-! ## Style loading (`Manager::load_styles`, mod.rs lines 135-186)

The external `stylish::Manager` rule store is modelled as an association
list from rule-set name to its parsed rules; `remove_styles(name)` deletes
the named set, a successful `load_styles(name, style)` installs it, and a
query matches a rule exactly when its containing named set is installed
(spec section 4.2). The parser of the external crate is a function
parameter `parse`; `parse = none` is a parse error, which the source logs
and skips. The filesystem is a pair of partial maps; the contents of a
`.list` file are modelled as the line list produced by the standard
`lines()` call in the source. An `unwrap` on a missing rule file is a
panic, modelled as the `none` result of `load_styles`. -/

/-- A parsed rule set installed under one name; its internal structure
belongs to the external stylish crate and is modelled as a list of
strings. -/
abbrev Rules := List String

/-- The stylish manager's store of named rule sets. -/
structure StyleStore where
  styles : List (String × Rules)
deriving Repr, DecidableEq

/-- External `stylish::Manager::remove_styles`: delete the named set. -/
def StyleStore.remove_styles (m : StyleStore) (name : String) : StyleStore :=
  { styles := m.styles.filter (fun p => p.1 != name) }

/-- External `stylish::Manager::load_styles` on a successful parse:
install the rule set under the name; a later install of the same name
shadows an earlier one (first match wins on lookup). -/
def StyleStore.load_styles_ext (m : StyleStore) (name : String) (r : Rules) : StyleStore :=
  { styles := (name, r) :: m.styles }

/-- Whether a query can match a rule of the named set: the set must be
installed in the store. -/
def lookupRules (m : StyleStore) (n : String) : Option Rules :=
  (m.styles.find? (fun p => p.1 == n)).map Prod.snd

/-- The `style_groups: HashMap<String, Vec<String>>` field of `Manager`,
as an association list. -/
abbrev GroupMap := List (String × List String)

/-- `HashMap::remove` on the group map. -/
def groupRemove (g : GroupMap) (key : String) : GroupMap :=
  g.filter (fun p => p.1 != key)

/-- `HashMap::insert` on the group map. -/
def groupInsert (g : GroupMap) (key : String) (v : List String) : GroupMap :=
  (key, v) :: groupRemove g key

/-- `HashMap::get` on the group map. -/
def groupFind (g : GroupMap) (key : String) : Option (List String) :=
  (g.find? (fun p => p.1 == key)).map Prod.snd

/-- Filesystem as seen by `load_styles`: `list_file key` is the line list
of `styles/{key}.list` (already split as by `lines()`), `style_file name`
is the text of `styles/{name}.style`; `none` means the file is absent. -/
structure StyleFS where
  list_file : String → Option (List String)
  style_file : String → Option String

/-- The styles-related state of `Manager`: the external store plus the
`style_groups` map. -/
structure StylesState where
  store : StyleStore
  style_groups : GroupMap
deriving Repr, DecidableEq

/-- A fresh manager: empty store, empty group map. -/
def emptyStyles : StylesState :=
  { store := { styles := [] }, style_groups := [] }

/-- ASCII model of `str::trim` as called on each line (executable over
the character list so that concrete instances evaluate). -/
def trimS (s : String) : String :=
  String.mk (((s.data.dropWhile Char.isWhitespace).reverse.dropWhile Char.isWhitespace).reverse)

/-- Model of `line.starts_with('#')`. -/
def startsHash (s : String) : Bool :=
  match s.data with
  | [] => false
  | c :: _ => c = '#'

/-- A trimmed line survives the `is_empty || starts_with('#')` skip of the
source (negated, so `keptLine t = true` means the line is processed). -/
def keptLine (t : String) : Bool :=
  !(t.data.isEmpty || startsHash t)

/-- The rule-file names a list-file content contributes, in order: each
line trimmed, empty and `#`-prefixed lines skipped. -/
def validOf (lines : List String) : List String :=
  (lines.map trimS).filter keptLine

/-- The rules the store would hold for rule name `n`: contents of
`styles/{n}.style` fed to the parser. -/
def ruleValue (parse : String → Option Rules) (fs : StyleFS) (n : String) : Option Rules :=
  (fs.style_file n).bind parse

/-- One loop iteration of `Manager::load_styles` (mod.rs lines 157-178)
over the accumulated `(group, manager)` pair; `none` is a panic
(the `File::open(...).unwrap()` on a missing rule file). -/
def load_step (parse : String → Option Rules) (fs : StyleFS)
    (acc : Option (List String × StyleStore)) (line : String) :
    Option (List String × StyleStore) :=
  acc.bind fun gm =>
    let t := trimS line
    if keptLine t then
      match fs.style_file t with
      | none => none
      | some style =>
        match parse style with
        | some rules => some (gm.1 ++ [t], gm.2.load_styles_ext t rules)
        | none => some (gm.1 ++ [t], gm.2)
    else some gm

/-- `Manager::load_styles(key)` (mod.rs lines 135-181): remove the old
group's rule sets, remove the group-map entry, then read the list file
(missing list file: silent early return), process each line, and record
the new group. `none` is a panic on a missing rule file. -/
def load_styles (parse : String → Option Rules) (st : StylesState) (fs : StyleFS)
    (key : String) : Option StylesState :=
  let old := (groupFind st.style_groups key).getD []
  let store := old.foldl StyleStore.remove_styles st.store
  let groups := groupRemove st.style_groups key
  match fs.list_file key with
  | none => some { store := store, style_groups := groups }
  | some lines =>
    (lines.foldl (load_step parse fs) (some ([], store))).map fun gm =>
      { store := gm.2, style_groups := groupInsert groups key gm.1 }

/-- Installing one rule set as the loop does when the file is present:
install on parse success, skip on parse failure. -/
def installRule (parse : String → Option Rules) (fs : StyleFS)
    (m : StyleStore) (n : String) : StyleStore :=
  match ruleValue parse fs n with
  | some r => m.load_styles_ext n r
  | none => m

/-- Installing a list of rule sets in order. -/
def installAll (parse : String → Option Rules) (fs : StyleFS)
    (m : StyleStore) (names : List String) : StyleStore :=
  names.foldl (installRule parse fs) m

/-- Removing a list of rule sets in order, as the removal loop of
`load_styles` does. -/
def removeAll (m : StyleStore) (names : List String) : StyleStore :=
  names.foldl StyleStore.remove_styles m

theorem load_step_none (parse : String → Option Rules) (fs : StyleFS)
    (lines : List String) : lines.foldl (load_step parse fs) none = none := by
  induction lines with
  | nil => rfl
  | cons l rest ih => simpa [load_step] using ih

theorem removeAll_eq_foldl (m : StyleStore) (names : List String) :
    names.foldl StyleStore.remove_styles m = removeAll m names := rfl

theorem validOf_cons (l : String) (rest : List String) :
    validOf (l :: rest) =
      (if keptLine (trimS l) then trimS l :: validOf rest else validOf rest) := by
  simp only [validOf, List.map_cons, List.filter_cons]

theorem load_fold_ok (parse : String → Option Rules) (fs : StyleFS) :
    ∀ (lines : List String) (g : List String) (m : StyleStore),
      (∀ t ∈ validOf lines, (fs.style_file t).isSome) →
      lines.foldl (load_step parse fs) (some (g, m)) =
        some (g ++ validOf lines, installAll parse fs m (validOf lines)) := by
  intro lines
  induction lines with
  | nil => intro g m _; simp [validOf, installAll]
  | cons l rest ih =>
    intro g m h
    rw [List.foldl_cons]
    by_cases hk : keptLine (trimS l)
    · have hmem : trimS l ∈ validOf (l :: rest) := by
        rw [validOf_cons, if_pos hk]
        exact List.mem_cons_self _ _
      have hsf := h _ hmem
      rcases hsome : fs.style_file (trimS l) with _ | style
      · rw [hsome] at hsf; simp at hsf
      · have hstep : load_step parse fs (some (g, m)) l =
            some (g ++ [trimS l], installRule parse fs m (trimS l)) := by
          rcases hp : parse style with _ | r <;>
            simp [load_step, hk, hsome, installRule, ruleValue, hp]
        rw [hstep]
        have hrest : ∀ t ∈ validOf rest, (fs.style_file t).isSome := by
          intro t ht
          apply h
          rw [validOf_cons, if_pos hk]
          exact List.mem_cons_of_mem _ ht
        rw [ih (g ++ [trimS l]) _ hrest, validOf_cons, if_pos hk]
        simp [installAll]
    · have hstep : load_step parse fs (some (g, m)) l = some (g, m) := by
        simp [load_step, hk]
      rw [hstep]
      have hrest : ∀ t ∈ validOf rest, (fs.style_file t).isSome := by
        intro t ht
        apply h
        rw [validOf_cons, if_neg hk]
        exact ht
      rw [ih g m hrest, validOf_cons, if_neg hk]

theorem load_fold_panic (parse : String → Option Rules) (fs : StyleFS) :
    ∀ (lines : List String) (g : List String) (m : StyleStore) (t : String)
      (rest : List String),
      validOf lines = t :: rest → fs.style_file t = none →
      lines.foldl (load_step parse fs) (some (g, m)) = none := by
  intro lines
  induction lines with
  | nil => intro g m t rest h; simp [validOf] at h
  | cons l ls ih =>
    intro g m t rest h hnone
    rw [List.foldl_cons]
    by_cases hk : keptLine (trimS l)
    · rw [validOf_cons, if_pos hk] at h
      injection h with h1 h2
      rw [← h1] at hnone
      have hstep : load_step parse fs (some (g, m)) l = none := by
        simp [load_step, hk, hnone]
      rw [hstep, load_step_none]
    · rw [validOf_cons, if_neg hk] at h
      have hstep : load_step parse fs (some (g, m)) l = some (g, m) := by
        simp [load_step, hk]
      rw [hstep]
      exact ih g m t rest h hnone

theorem lookupRules_empty (n : String) : lookupRules { styles := [] } n = none := rfl

theorem lookupRules_installRule (parse : String → Option Rules) (fs : StyleFS)
    (m : StyleStore) (a n : String) :
    lookupRules (installRule parse fs m a) n =
      if n = a then
        (match ruleValue parse fs a with
          | some r => some r
          | none => lookupRules m n)
      else lookupRules m n := by
  rcases hr : ruleValue parse fs a with _ | r
  · simp [installRule, hr]
  · by_cases hna : n = a
    · subst hna
      simp [installRule, hr, StyleStore.load_styles_ext, lookupRules, List.find?_cons]
    · have hane : (a == n) = false := by
        by_cases h : a = n
        · exact absurd h.symm hna
        · simp [h]
      simp [installRule, hr, StyleStore.load_styles_ext, lookupRules, List.find?_cons, hane,
        hna]

theorem lookupRules_installAll (parse : String → Option Rules) (fs : StyleFS) :
    ∀ (names : List String) (m : StyleStore) (n : String),
      lookupRules (installAll parse fs m names) n =
        if n ∈ names ∧ (ruleValue parse fs n).isSome then ruleValue parse fs n
        else lookupRules m n := by
  intro names
  induction names with
  | nil => intro m n; simp [installAll]
  | cons a rest ih =>
    intro m n
    have hstep : installAll parse fs m (a :: rest) =
        installAll parse fs (installRule parse fs m a) rest := rfl
    rw [hstep, ih, lookupRules_installRule]
    by_cases hs : (ruleValue parse fs n).isSome
    · by_cases hin : n ∈ rest
      · simp [hin, hs]
      · by_cases hna : n = a
        · subst hna
          rcases hr : ruleValue parse fs n with _ | r
          · rw [hr] at hs; simp at hs
          · simp [hin, hs, hr]
        · simp [hin, hna, hs]
    · have hs' : ∀ P : Prop, ¬(P ∧ (ruleValue parse fs n).isSome = true) :=
        fun P hc => hs hc.2
      rw [if_neg (hs' _), if_neg (hs' _)]
      by_cases hna : n = a
      · subst hna
        rcases hr : ruleValue parse fs n with _ | r
        · simp [hr]
        · rw [hr] at hs; simp at hs
      · simp [hna]

theorem find?_filter_ne (n a : String) (hna : n ≠ a) :
    ∀ (l : List (String × Rules)),
      (l.filter (fun p => p.1 != a)).find? (fun p => p.1 == n) =
        l.find? (fun p => p.1 == n) := by
  intro l
  induction l with
  | nil => rfl
  | cons x rest ih =>
    by_cases hxn : x.1 = n
    · have h1 : (x.1 != a) = true := by
        simp only [bne_iff_ne, ne_eq, hxn]
        exact fun hc => hna hc
      have h2 : (x.1 == n) = true := by simp [beq_iff_eq, hxn]
      simp [List.filter_cons, h1, List.find?_cons, h2]
    · by_cases hxa : x.1 = a
      · have h1 : (x.1 != a) = false := by simp [bne_iff_ne, hxa]
        have h2 : (x.1 == n) = false := by simp [beq_iff_eq, hxn]
        simp [List.filter_cons, h1, List.find?_cons, h2, ih]
      · have h1 : (x.1 != a) = true := by simp [bne_iff_ne, hxa]
        have h2 : (x.1 == n) = false := by simp [beq_iff_eq, hxn]
        simp [List.filter_cons, h1, List.find?_cons, h2, ih]

theorem lookupRules_remove_styles (m : StyleStore) (a n : String) :
    lookupRules (m.remove_styles a) n = if n = a then none else lookupRules m n := by
  by_cases hna : n = a
  · subst hna
    have hfind : (m.styles.filter (fun p => p.1 != n)).find? (fun p => p.1 == n) = none := by
      rw [List.find?_eq_none]
      intro p hp
      rw [List.mem_filter] at hp
      have h2 := hp.2
      simp only [bne_iff_ne, ne_eq] at h2
      simp only [beq_iff_eq]
      exact h2
    simp [lookupRules, StyleStore.remove_styles, hfind]
  · simp only [if_neg hna, lookupRules, StyleStore.remove_styles]
    rw [find?_filter_ne n a hna]

theorem lookupRules_removeAll :
    ∀ (names : List String) (m : StyleStore) (n : String),
      lookupRules (removeAll m names) n = if n ∈ names then none else lookupRules m n := by
  intro names
  induction names with
  | nil => intro m n; simp [removeAll]
  | cons a rest ih =>
    intro m n
    have hstep : removeAll m (a :: rest) = removeAll (m.remove_styles a) rest := rfl
    rw [hstep, ih, lookupRules_remove_styles]
    by_cases hin : n ∈ rest
    · simp [hin]
    · by_cases hna : n = a <;> simp [hin, hna]

theorem groupFind_groupInsert_self (g : GroupMap) (key : String) (v : List String) :
    groupFind (groupInsert g key v) key = some v := by
  simp [groupFind, groupInsert, List.find?_cons]

theorem groupFind_groupRemove_self (g : GroupMap) (key : String) :
    groupFind (groupRemove g key) key = none := by
  have hfind : (g.filter (fun p => p.1 != key)).find? (fun p => p.1 == key) = none := by
    rw [List.find?_eq_none]
    intro p hp
    rw [List.mem_filter] at hp
    have h2 := hp.2
    simp only [bne_iff_ne, ne_eq] at h2
    simp only [beq_iff_eq]
    exact h2
  simp [groupFind, groupRemove, hfind]

/-- C1 counterexample inputs: the group list file for key `menu` exists
and names the rule `main`, but `styles/main.style` is absent. -/
def cexKey : String := "menu"

def cexLine : String := "main"

def cexParse : String → Option Rules := fun s => some [s]

def cexFS : StyleFS :=
  { list_file := fun k => if k = cexKey then some [cexLine] else none
    style_file := fun _ => none }

/-- C1 counterexample: with the group list file present but the single
rule file it names missing, `load_styles` panics (the
`File::open(...).unwrap()` at mod.rs line 166) instead of returning
silently, so a missing individual rule file is not treated as "nothing to
load". -/
theorem c1_missing_rule_file_panics :
    load_styles cexParse emptyStyles cexFS cexKey = none := by decide

/-- C1 amended: a missing group list file is treated as nothing to load
and `load_styles` returns silently (performing only the removal of the
old group); but a missing individual rule file named in the list file
causes a panic via `unwrap`. -/
theorem c1_missing_resource (parse : String → Option Rules) (st : StylesState)
    (fs : StyleFS) (key : String) :
    (fs.list_file key = none →
      load_styles parse st fs key =
        some { store := removeAll st.store ((groupFind st.style_groups key).getD [])
               style_groups := groupRemove st.style_groups key }) ∧
    (∀ lines t rest, fs.list_file key = some lines →
      validOf lines = t :: rest → fs.style_file t = none →
      load_styles parse st fs key = none) := by
  constructor
  · intro h
    simp [load_styles, h, removeAll]
  · intro lines t rest hl hv hnone
    simp only [load_styles, hl]
    rw [load_fold_panic parse fs lines [] _ t rest hv hnone]
    rfl

/-- C1 amended witness at the counterexample inputs plus a missing-list
instance. -/
theorem c1_missing_resource_witness :
    (load_styles cexParse emptyStyles
        { list_file := fun _ => none, style_file := fun _ => none } cexKey =
      some { store := removeAll emptyStyles.store
               ((groupFind emptyStyles.style_groups cexKey).getD [])
             style_groups := groupRemove emptyStyles.style_groups cexKey }) ∧
    load_styles cexParse emptyStyles cexFS cexKey = none := by
  constructor
  · exact (c1_missing_resource cexParse emptyStyles
      { list_file := fun _ => none, style_file := fun _ => none } cexKey).1 rfl
  · exact (c1_missing_resource cexParse emptyStyles cexFS cexKey).2 [cexLine]
      (trimS cexLine) [] rfl (by decide) rfl

/-- C9: when the group list file is missing, `load_styles` still removes
the rules previously loaded under the key (and the group-map entry)
before the early return: the store changes even though nothing new is
loaded. -/
theorem c9_failed_load_removes_old (parse : String → Option Rules) (st : StylesState)
    (fs : StyleFS) (key : String) (old : List String)
    (hold : groupFind st.style_groups key = some old)
    (hlist : fs.list_file key = none) :
    load_styles parse st fs key =
      some { store := removeAll st.store old
             style_groups := groupRemove st.style_groups key } ∧
    (∀ n ∈ old, lookupRules (removeAll st.store old) n = none) ∧
    groupFind (groupRemove st.style_groups key) key = none := by
  refine ⟨?_, ?_, groupFind_groupRemove_self _ _⟩
  · simp [load_styles, hlist, hold, removeAll]
  · intro n hn
    rw [lookupRules_removeAll]
    simp [hn]

/-- C9 witness: a state with one previously loaded group for the key. -/
def c9State : StylesState :=
  { store := { styles := [(cexLine, [cexLine])] }
    style_groups := [(cexKey, [cexLine])] }

theorem c9_failed_load_removes_old_witness :
    load_styles cexParse c9State
        { list_file := fun _ => none, style_file := fun _ => none } cexKey =
      some { store := removeAll c9State.store [cexLine]
             style_groups := groupRemove c9State.style_groups cexKey } ∧
    (∀ n ∈ [cexLine], lookupRules (removeAll c9State.store [cexLine]) n = none) ∧
    groupFind (groupRemove c9State.style_groups cexKey) cexKey = none :=
  c9_failed_load_removes_old cexParse c9State
    { list_file := fun _ => none, style_file := fun _ => none } cexKey [cexLine]
    (by decide) rfl

/-- C4: two successful loads under the same key with different rule-file
sets: after the second, exactly the second set's rules are installed and
matchable; rules unique to the first set no longer match. -/
theorem c4_reload_replaces (parse : String → Option Rules) (fs1 fs2 : StyleFS)
    (key : String) (c1 c2 : List String)
    (h1 : fs1.list_file key = some c1) (h2 : fs2.list_file key = some c2)
    (hs1 : ∀ t ∈ validOf c1, (ruleValue parse fs1 t).isSome)
    (hs2 : ∀ t ∈ validOf c2, (ruleValue parse fs2 t).isSome) :
    ∃ st1 st2,
      load_styles parse emptyStyles fs1 key = some st1 ∧
      load_styles parse st1 fs2 key = some st2 ∧
      (∀ n ∈ validOf c2, lookupRules st2.store n = ruleValue parse fs2 n) ∧
      (∀ n, n ∈ validOf c1 → n ∉ validOf c2 → lookupRules st2.store n = none) ∧
      (∀ n, (lookupRules st2.store n).isSome → n ∈ validOf c2) := by
  have hsf1 : ∀ t ∈ validOf c1, (fs1.style_file t).isSome := by
    intro t ht
    have := hs1 t ht
    rcases h : fs1.style_file t with _ | s
    · rw [ruleValue, h] at this; simp at this
    · simp
  have hsf2 : ∀ t ∈ validOf c2, (fs2.style_file t).isSome := by
    intro t ht
    have := hs2 t ht
    rcases h : fs2.style_file t with _ | s
    · rw [ruleValue, h] at this; simp at this
    · simp
  have hload1 : load_styles parse emptyStyles fs1 key =
      some { store := installAll parse fs1 { styles := [] } (validOf c1)
             style_groups := groupInsert [] key (validOf c1) } := by
    simp only [load_styles, emptyStyles, h1]
    rw [show groupFind ([] : GroupMap) key = none from rfl]
    simp only [Option.getD_none, List.foldl_nil]
    rw [load_fold_ok parse fs1 c1 [] _ hsf1]
    simp [groupRemove]
  set st1 : StylesState :=
    { store := installAll parse fs1 { styles := [] } (validOf c1)
      style_groups := groupInsert [] key (validOf c1) } with hst1
  have hfind1 : groupFind st1.style_groups key = some (validOf c1) :=
    groupFind_groupInsert_self _ _ _
  have hwiped : ∀ n, lookupRules (removeAll st1.store (validOf c1)) n = none := by
    intro n
    rw [lookupRules_removeAll]
    by_cases hn : n ∈ validOf c1
    · simp [hn]
    · rw [if_neg hn, hst1]
      rw [lookupRules_installAll]
      simp [hn, lookupRules_empty]
  have hload2 : load_styles parse st1 fs2 key =
      some { store := installAll parse fs2 (removeAll st1.store (validOf c1)) (validOf c2)
             style_groups := groupInsert (groupRemove st1.style_groups key) key
               (validOf c2) } := by
    simp only [load_styles, h2, hfind1, Option.getD_some]
    rw [removeAll_eq_foldl, load_fold_ok parse fs2 c2 [] _ hsf2]
    simp
  refine ⟨st1, _, hload1, hload2, ?_, ?_, ?_⟩
  · intro n hn
    rw [lookupRules_installAll]
    have := hs2 n hn
    simp [hn, this]
  · intro n _ hn2
    rw [lookupRules_installAll]
    simp [hn2, hwiped n]
  · intro n hn
    rw [lookupRules_installAll] at hn
    by_cases h : n ∈ validOf c2 ∧ (ruleValue parse fs2 n).isSome
    · exact h.1
    · rw [if_neg h, hwiped n] at hn
      simp at hn

/-- C4 witness inputs: first load installs `alpha` and `beta`, second
load installs `beta` and `gamma`; every rule file exists and parses. -/
def wKey : String := "menu"

def wAlpha : String := "alpha"

def wBeta : String := "beta"

def wGamma : String := "gamma"

def wFS1 : StyleFS :=
  { list_file := fun k => if k = wKey then some [wAlpha, wBeta] else none
    style_file := fun n => some n }

def wFS2 : StyleFS :=
  { list_file := fun k => if k = wKey then some [wBeta, wGamma] else none
    style_file := fun n => some n }

theorem c4_reload_replaces_witness :
    ∃ st1 st2,
      load_styles cexParse emptyStyles wFS1 wKey = some st1 ∧
      load_styles cexParse st1 wFS2 wKey = some st2 ∧
      (∀ n ∈ validOf [wBeta, wGamma], lookupRules st2.store n = ruleValue cexParse wFS2 n) ∧
      (∀ n, n ∈ validOf [wAlpha, wBeta] → n ∉ validOf [wBeta, wGamma] →
        lookupRules st2.store n = none) ∧
      (∀ n, (lookupRules st2.store n).isSome → n ∈ validOf [wBeta, wGamma]) :=
  c4_reload_replaces cexParse wFS1 wFS2 wKey [wAlpha, wBeta] [wBeta, wGamma]
    rfl rfl (by decide) (by decide)

/-! ## Per-frame lifecycle (`Manager::update`, mod.rs lines 74-132)

Nodes are identified by `Nat` ids. The static per-node attributes (layout
participation and declared handlers, read via `has_layout`/`get_value`)
are a fixed function `attrs`; the dynamic `$init`/`$cycle` properties are
per-node state. Each `update(delta)` call receives the list of node ids
the tree query returns that frame. The initial read-only scan for a text
area and the `delta` payload of Update events are omitted: they do not
touch the modelled state. `$init` is only ever set to `true`, so the
`is_none`/`is_some` checks of the source become a `Bool`. -/

/-- Static attributes of a node consulted by `Manager::update`. -/
structure UNode where
  has_layout : Bool
  on_init : Bool
  on_deinit : Bool
  on_update : Bool
deriving Repr, DecidableEq

/-- Dynamic per-node properties: whether `$init` is set, and the stored
`$cycle` parity (absent before the first visit). -/
structure UProps where
  initFlag : Bool
  cycleFlag : Option Bool
deriving Repr, DecidableEq

/-- Lifecycle-relevant event kinds pushed by `update`. -/
inductive UEventTy where
  | evInit
  | evDeinit
  | evUpdate
deriving Repr, DecidableEq

/-- A queued `NodeEvent` (target node id and kind). -/
structure UEvent where
  node : Nat
  ty : UEventTy
deriving Repr, DecidableEq

/-- Manager state relevant to `update`: per-node dynamic properties, the
`cycle` parity flag, the tracked live-node list `nodes`, and the event
queue. -/
structure UWorld where
  propsU : Nat → UProps
  cycleM : Bool
  tracked : List Nat
  events : List UEvent

/-- `node.raw_set_property("$cycle", self.cycle)`. -/
def setCycleProp (w : UWorld) (n : Nat) : UWorld :=
  { w with
      propsU := fun k =>
        if k = n then { w.propsU k with cycleFlag := some w.cycleM } else w.propsU k }

/-- `node.raw_set_property("$init", true)`. -/
def setInitProp (w : UWorld) (n : Nat) : UWorld :=
  { w with
      propsU := fun k =>
        if k = n then { w.propsU k with initFlag := true } else w.propsU k }

/-- `self.events.push(...)`. -/
def pushEvent (w : UWorld) (e : UEvent) : UWorld :=
  { w with events := w.events ++ [e] }

/-- The body of the per-node loop of `update` (mod.rs lines 90-110):
stamp the parity, initialize-and-track on first layout visit (emitting
Init when an `on_init` handler is declared), and emit Update when an
`on_update` handler is declared. -/
def stamp (attrs : Nat → UNode) (w : UWorld) (n : Nat) : UWorld :=
  let w1 := setCycleProp w n
  let w2 :=
    if (attrs n).has_layout && !((w1.propsU n).initFlag) then
      let wa := setInitProp w1 n
      let wb := if (attrs n).on_init then pushEvent wa { node := n, ty := UEventTy.evInit } else wa
      { wb with tracked := wb.tracked ++ [n] }
    else w1
  if (attrs n).on_update then pushEvent w2 { node := n, ty := UEventTy.evUpdate } else w2

/-- The staleness test of the `retain` closure:
`$cycle` absent or different from the current parity. -/
def staleFlag (cycle : Bool) (p : UProps) : Bool :=
  match p.cycleFlag with
  | none => true
  | some c => c != cycle

/-- The `self.nodes.retain(...)` pass (mod.rs lines 112-129): drop stale
nodes, emitting Deinit for each dropped node that was initialized and
declares an `on_deinit` handler; returns the retained list and the
emitted events in order. -/
def pruneAux (attrs : Nat → UNode) (cycle : Bool) (pr : Nat → UProps) :
    List Nat → List Nat × List UEvent
  | [] => ([], [])
  | n :: rest =>
    if staleFlag cycle (pr n) then
      ((pruneAux attrs cycle pr rest).1,
        (if (pr n).initFlag && (attrs n).on_deinit
         then [{ node := n, ty := UEventTy.evDeinit }] else []) ++
          (pruneAux attrs cycle pr rest).2)
    else (n :: (pruneAux attrs cycle pr rest).1, (pruneAux attrs cycle pr rest).2)

/-- The effect of the whole `retain` call on the manager state: replace
the tracked list by the retained one and append the emitted Deinit
events. -/
def postPrune (attrs : Nat → UNode) (w : UWorld) : UWorld :=
  { w with
      tracked := (pruneAux attrs w.cycleM w.propsU w.tracked).1
      events := w.events ++ (pruneAux attrs w.cycleM w.propsU w.tracked).2 }

/-- One `Manager::update` call: flip the parity, stamp every present
node, then prune the tracked list. `present` is the id list the tree
query returns this frame. -/
def updateU (attrs : Nat → UNode) (present : List Nat) (w : UWorld) : UWorld :=
  postPrune attrs (present.foldl (stamp attrs) { w with cycleM := !w.cycleM })

/-- A fresh `Manager`: no properties set, parity false, nothing tracked,
empty queue. -/
def world0 : UWorld :=
  { propsU := fun _ => { initFlag := false, cycleFlag := none }
    cycleM := false
    tracked := []
    events := [] }

/-- Run a sequence of `update` calls from a fresh manager; each frame
gives the present-node list. -/
def runU (attrs : Nat → UNode) (frames : List (List Nat)) : UWorld :=
  frames.foldl (fun w p => updateU attrs p w) world0

/-- Whether an event is an Init or Deinit event of node `n`. -/
def lifeEv (n : Nat) (e : UEvent) : Bool :=
  e.node == n && (e.ty == UEventTy.evInit || e.ty == UEventTy.evDeinit)

/-- The Init/Deinit trace of node `n` in an event queue. -/
def lifeFor (n : Nat) (evs : List UEvent) : List UEventTy :=
  (evs.filter (lifeEv n)).map UEvent.ty

/-- The Init events node `n` contributes when first initialized. -/
def initTrace (attrs : Nat → UNode) (n : Nat) : List UEventTy :=
  if (attrs n).on_init then [UEventTy.evInit] else []

/-- The Deinit events node `n` contributes when pruned. -/
def deinitTrace (attrs : Nat → UNode) (n : Nat) : List UEventTy :=
  if (attrs n).on_deinit then [UEventTy.evDeinit] else []

/-- Lifecycle invariant for node `n`: before initialization there are no
lifecycle events and the node is untracked; while tracked it is tracked
once and its trace is exactly the Init part; once initialized and
untracked its trace is the Init part followed by the Deinit part. -/
def NodeInv (attrs : Nat → UNode) (n : Nat) (w : UWorld) : Prop :=
  ((w.propsU n).initFlag = false → lifeFor n w.events = [] ∧ n ∉ w.tracked) ∧
  ((w.propsU n).initFlag = true → n ∈ w.tracked →
    w.tracked.count n = 1 ∧ lifeFor n w.events = initTrace attrs n) ∧
  ((w.propsU n).initFlag = true → n ∉ w.tracked →
    lifeFor n w.events = initTrace attrs n ++ deinitTrace attrs n)

theorem lifeFor_append (n : Nat) (a b : List UEvent) :
    lifeFor n (a ++ b) = lifeFor n a ++ lifeFor n b := by
  simp [lifeFor, List.filter_append]

theorem lifeFor_single_ne (n m : Nat) (ty : UEventTy) (h : m ≠ n) :
    lifeFor n [{ node := m, ty := ty }] = [] := by
  have : (m == n) = false := by simp [h]
  simp [lifeFor, lifeEv, this]

theorem lifeFor_single_update (n m : Nat) :
    lifeFor n [{ node := m, ty := UEventTy.evUpdate }] = [] := by
  simp [lifeFor, lifeEv]

theorem lifeFor_single_init (n : Nat) :
    lifeFor n [{ node := n, ty := UEventTy.evInit }] = [UEventTy.evInit] := by
  simp [lifeFor, lifeEv]

theorem lifeFor_single_deinit (n : Nat) :
    lifeFor n [{ node := n, ty := UEventTy.evDeinit }] = [UEventTy.evDeinit] := by
  simp [lifeFor, lifeEv]

theorem stamp_propsU_ne (attrs : Nat → UNode) (w : UWorld) (m k : Nat) (h : k ≠ m) :
    (stamp attrs w m).propsU k = w.propsU k := by
  simp only [stamp, setCycleProp, setInitProp, pushEvent]
  split_ifs <;> simp [h]

theorem stamp_initFlag_self (attrs : Nat → UNode) (w : UWorld) (m : Nat) :
    ((stamp attrs w m).propsU m).initFlag =
      ((attrs m).has_layout || (w.propsU m).initFlag) := by
  simp only [stamp, setCycleProp, setInitProp, pushEvent]
  split_ifs with h1 h2 h3 <;> simp_all <;> cases hl : (attrs m).has_layout <;> simp_all

theorem stamp_tracked (attrs : Nat → UNode) (w : UWorld) (m : Nat) :
    (stamp attrs w m).tracked =
      (if (attrs m).has_layout && !((w.propsU m).initFlag) then w.tracked ++ [m]
       else w.tracked) := by
  simp only [stamp, setCycleProp, setInitProp, pushEvent]
  split_ifs <;> simp_all

theorem stamp_events (attrs : Nat → UNode) (w : UWorld) (m : Nat) :
    (stamp attrs w m).events =
      w.events ++
        (if (attrs m).has_layout && !((w.propsU m).initFlag)
         then (if (attrs m).on_init then [{ node := m, ty := UEventTy.evInit }] else [])
         else []) ++
        (if (attrs m).on_update then [{ node := m, ty := UEventTy.evUpdate }] else []) := by
  simp only [stamp, setCycleProp, setInitProp, pushEvent]
  split_ifs <;> simp_all

theorem lifeFor_nil (n : Nat) : lifeFor n [] = [] := rfl

theorem stamp_lifeFor (attrs : Nat → UNode) (w : UWorld) (m n : Nat) :
    lifeFor n (stamp attrs w m).events =
      lifeFor n w.events ++
        (if m = n ∧ ((attrs m).has_layout && !((w.propsU m).initFlag)) = true
         then initTrace attrs n else []) := by
  rw [stamp_events, lifeFor_append, lifeFor_append]
  have hB : lifeFor n
      (if (attrs m).on_update then [{ node := m, ty := UEventTy.evUpdate }] else []) = [] := by
    split_ifs
    · exact lifeFor_single_update n m
    · exact lifeFor_nil n
  rw [hB, List.append_nil]
  by_cases hmn : m = n
  · subst hmn
    by_cases hc : ((attrs m).has_layout && !((w.propsU m).initFlag)) = true
    · rw [if_pos hc]
      have hand : m = m ∧ ((attrs m).has_layout && !((w.propsU m).initFlag)) = true :=
        ⟨rfl, hc⟩
      rw [if_pos hand]
      by_cases hi : (attrs m).on_init
      · rw [if_pos hi, lifeFor_single_init]
        simp [initTrace, hi]
      · rw [if_neg hi, lifeFor_nil]
        simp [initTrace, hi]
    · have hand : ¬(m = m ∧ ((attrs m).has_layout && !((w.propsU m).initFlag)) = true) :=
        fun hx => hc hx.2
      rw [if_neg hc, if_neg hand, lifeFor_nil]
  · have hcnd : ¬(m = n ∧ ((attrs m).has_layout && !((w.propsU m).initFlag)) = true) :=
      fun hx => hmn hx.1
    rw [if_neg hcnd]
    split_ifs with hc hi
    · rw [lifeFor_single_ne _ _ _ hmn]
    · rw [lifeFor_nil]
    · rw [lifeFor_nil]

theorem stamp_inv (attrs : Nat → UNode) (n m : Nat) (w : UWorld)
    (h : NodeInv attrs n w) : NodeInv attrs n (stamp attrs w m) := by
  obtain ⟨h1, h2, h3⟩ := h
  by_cases hmn : m = n
  · subst hmn
    by_cases hc : ((attrs m).has_layout && !((w.propsU m).initFlag)) = true
    · have hflag : (w.propsU m).initFlag = false := by
        have hc' := hc
        simp only [Bool.and_eq_true, Bool.not_eq_true'] at hc'
        exact hc'.2
      obtain ⟨hlf, hnt⟩ := h1 hflag
      refine ⟨?_, ?_, ?_⟩
      · intro hcon
        rw [stamp_initFlag_self] at hcon
        simp only [Bool.or_eq_false_iff] at hcon
        rw [hcon.1] at hc
        simp at hc
      · intro _ _
        rw [stamp_tracked, if_pos hc, stamp_lifeFor, if_pos ⟨rfl, hc⟩, hlf]
        constructor
        · rw [List.count_append, List.count_eq_zero.mpr hnt]
          simp
        · simp
      · intro _ hnot
        exfalso
        apply hnot
        rw [stamp_tracked, if_pos hc]
        simp
    · have hlife := stamp_lifeFor attrs w m m
      have hcnd : ¬(m = m ∧ ((attrs m).has_layout && !((w.propsU m).initFlag)) = true) :=
        fun hx => hc hx.2
      rw [if_neg hcnd, List.append_nil] at hlife
      have htr : (stamp attrs w m).tracked = w.tracked := by
        rw [stamp_tracked, if_neg hc]
      by_cases hold : (w.propsU m).initFlag = true
      · have hflag' : ((stamp attrs w m).propsU m).initFlag = true := by
          rw [stamp_initFlag_self, hold]
          simp
        refine ⟨?_, ?_, ?_⟩
        · intro hcon
          rw [hflag'] at hcon
          simp at hcon
        · intro _ hmem
          rw [htr] at hmem
          obtain ⟨ha, hb⟩ := h2 hold hmem
          exact ⟨by rw [htr]; exact ha, by rw [hlife]; exact hb⟩
        · intro _ hmem
          rw [htr] at hmem
          rw [hlife]
          exact h3 hold hmem
      · have hold' : (w.propsU m).initFlag = false := by
          simpa using hold
        have hl0 : (attrs m).has_layout = false := by
          rw [hold'] at hc
          simpa using hc
        have hflag' : ((stamp attrs w m).propsU m).initFlag = false := by
          rw [stamp_initFlag_self, hold', hl0]
          rfl
        obtain ⟨ha, hb⟩ := h1 hold'
        refine ⟨?_, ?_, ?_⟩
        · intro _
          exact ⟨by rw [hlife]; exact ha, by rw [htr]; exact hb⟩
        · intro hcon
          rw [hflag'] at hcon
          simp at hcon
        · intro hcon
          rw [hflag'] at hcon
          simp at hcon
  · have hpn : n ≠ m := fun he => hmn he.symm
    have hp := stamp_propsU_ne attrs w m n hpn
    have hlife := stamp_lifeFor attrs w m n
    have hcnd : ¬(m = n ∧ ((attrs m).has_layout && !((w.propsU m).initFlag)) = true) :=
      fun hx => hmn hx.1
    rw [if_neg hcnd, List.append_nil] at hlife
    have hmem : n ∈ (stamp attrs w m).tracked ↔ n ∈ w.tracked := by
      rw [stamp_tracked]
      split_ifs <;> simp [hpn]
    have hcnt : (stamp attrs w m).tracked.count n = w.tracked.count n := by
      rw [stamp_tracked]
      split_ifs <;> simp [List.count_append, hpn]
    refine ⟨?_, ?_, ?_⟩
    · intro hcon
      rw [hp] at hcon
      obtain ⟨ha, hb⟩ := h1 hcon
      exact ⟨by rw [hlife]; exact ha, by rw [hmem]; exact hb⟩
    · intro hcon hmm
      rw [hp] at hcon
      rw [hmem] at hmm
      obtain ⟨ha, hb⟩ := h2 hcon hmm
      exact ⟨by rw [hcnt]; exact ha, by rw [hlife]; exact hb⟩
    · intro hcon hmm
      rw [hp] at hcon
      rw [hmem] at hmm
      rw [hlife]
      exact h3 hcon hmm

theorem foldl_stamp_inv (attrs : Nat → UNode) (n : Nat) (present : List Nat) :
    ∀ (w : UWorld), NodeInv attrs n w →
      NodeInv attrs n (present.foldl (stamp attrs) w) := by
  induction present with
  | nil => intro w h; exact h
  | cons m rest ih =>
    intro w h
    rw [List.foldl_cons]
    exact ih _ (stamp_inv attrs n m w h)

theorem pruneAux_not_mem (attrs : Nat → UNode) (c : Bool) (pr : Nat → UProps) (n : Nat) :
    ∀ (l : List Nat), n ∉ l →
      n ∉ (pruneAux attrs c pr l).1 ∧ lifeFor n (pruneAux attrs c pr l).2 = [] := by
  intro l
  induction l with
  | nil => intro; exact ⟨List.not_mem_nil n, rfl⟩
  | cons a rest ih =>
    intro hn
    have hna : a ≠ n := fun he => hn (he ▸ List.mem_cons_self a rest)
    have hrest : n ∉ rest := fun hr => hn (List.mem_cons_of_mem _ hr)
    obtain ⟨ih1, ih2⟩ := ih hrest
    simp only [pruneAux]
    split_ifs with hs hd
    · exact ⟨ih1, by rw [lifeFor_append, ih2, List.append_nil, lifeFor_single_ne _ _ _ hna]⟩
    · exact ⟨ih1, by rw [lifeFor_append, ih2, List.append_nil, lifeFor_nil]⟩
    · refine ⟨?_, ih2⟩
      intro hcon
      rcases List.mem_cons.mp hcon with he | he
      · exact hna he.symm
      · exact ih1 he

theorem pruneAux_count_one (attrs : Nat → UNode) (c : Bool) (pr : Nat → UProps) (n : Nat)
    (hinit : (pr n).initFlag = true) :
    ∀ (l : List Nat), l.count n = 1 →
      ((pruneAux attrs c pr l).1.count n = 1 ∧ n ∈ (pruneAux attrs c pr l).1 ∧
        lifeFor n (pruneAux attrs c pr l).2 = []) ∨
      (n ∉ (pruneAux attrs c pr l).1 ∧
        lifeFor n (pruneAux attrs c pr l).2 = deinitTrace attrs n) := by
  intro l
  induction l with
  | nil => intro h; simp at h
  | cons a rest ih =>
    intro hcount
    by_cases han : a = n
    · subst han
      have hr0 : rest.count a = 0 := by
        have hself := List.count_cons_self a rest
        omega
      have hnr : a ∉ rest := List.count_eq_zero.mp hr0
      obtain ⟨hp1, hp2⟩ := pruneAux_not_mem attrs c pr a rest hnr
      simp only [pruneAux]
      split_ifs with hs hd
      · right
        refine ⟨hp1, ?_⟩
        rw [lifeFor_append, hp2, List.append_nil, lifeFor_single_deinit]
        have hd2 : (attrs a).on_deinit = true := by
          have hd' := hd
          simp only [Bool.and_eq_true] at hd'
          exact hd'.2
        simp [deinitTrace, hd2]
      · right
        refine ⟨hp1, ?_⟩
        rw [lifeFor_append, hp2, List.append_nil, lifeFor_nil]
        simp only [hinit, Bool.true_and, Bool.not_eq_true] at hd
        simp [deinitTrace, hd]
      · left
        refine ⟨?_, List.mem_cons_self _ _, hp2⟩
        rw [List.count_cons_self, List.count_eq_zero.mpr hp1]
    · have hne : n ≠ a := fun he => han he.symm
      have hrest : rest.count n = 1 := by
        rwa [List.count_cons_of_ne hne] at hcount
      rcases ih hrest with ⟨i1, i2, i3⟩ | ⟨i1, i2⟩
      · left
        simp only [pruneAux]
        split_ifs with hs hd
        · exact ⟨i1, i2, by
            rw [lifeFor_append, i3, List.append_nil, lifeFor_single_ne _ _ _ han]⟩
        · exact ⟨i1, i2, by rw [lifeFor_append, i3, List.append_nil, lifeFor_nil]⟩
        · exact ⟨by rw [List.count_cons_of_ne hne]; exact i1,
            List.mem_cons_of_mem _ i2, i3⟩
      · right
        simp only [pruneAux]
        split_ifs with hs hd
        · refine ⟨i1, ?_⟩
          rw [lifeFor_append, i2, lifeFor_single_ne _ _ _ han, List.nil_append]
        · refine ⟨i1, ?_⟩
          rw [lifeFor_append, i2, lifeFor_nil, List.nil_append]
        · refine ⟨?_, i2⟩
          intro hcon
          rcases List.mem_cons.mp hcon with he | he
          · exact han he.symm
          · exact i1 he

theorem postPrune_inv (attrs : Nat → UNode) (n : Nat) (w : UWorld)
    (h : NodeInv attrs n w) : NodeInv attrs n (postPrune attrs w) := by
  obtain ⟨h1, h2, h3⟩ := h
  by_cases hflag : (w.propsU n).initFlag = true
  · by_cases hmem : n ∈ w.tracked
    · obtain ⟨hcnt, hlf⟩ := h2 hflag hmem
      rcases pruneAux_count_one attrs w.cycleM w.propsU n hflag w.tracked hcnt with
        ⟨i1, i2, i3⟩ | ⟨i1, i2⟩
      · refine ⟨?_, ?_, ?_⟩
        · intro hcon
          rw [show (postPrune attrs w).propsU n = w.propsU n from rfl, hflag] at hcon
          simp at hcon
        · intro _ _
          refine ⟨i1, ?_⟩
          show lifeFor n (w.events ++ (pruneAux attrs w.cycleM w.propsU w.tracked).2) = _
          rw [lifeFor_append, hlf, i3, List.append_nil]
        · intro _ hnot
          exact absurd i2 hnot
      · refine ⟨?_, ?_, ?_⟩
        · intro hcon
          rw [show (postPrune attrs w).propsU n = w.propsU n from rfl, hflag] at hcon
          simp at hcon
        · intro _ hmm
          exact absurd hmm i1
        · intro _ _
          show lifeFor n (w.events ++ (pruneAux attrs w.cycleM w.propsU w.tracked).2) = _
          rw [lifeFor_append, hlf, i2]
    · have hlf := h3 hflag hmem
      obtain ⟨hm, he⟩ := pruneAux_not_mem attrs w.cycleM w.propsU n w.tracked hmem
      refine ⟨?_, ?_, ?_⟩
      · intro hcon
        rw [show (postPrune attrs w).propsU n = w.propsU n from rfl, hflag] at hcon
        simp at hcon
      · intro _ hmm
        exact absurd hmm hm
      · intro _ _
        show lifeFor n (w.events ++ (pruneAux attrs w.cycleM w.propsU w.tracked).2) = _
        rw [lifeFor_append, hlf, he, List.append_nil]
  · have hflag' : (w.propsU n).initFlag = false := by
      simpa using hflag
    obtain ⟨ha, hb⟩ := h1 hflag'
    obtain ⟨hm, he⟩ := pruneAux_not_mem attrs w.cycleM w.propsU n w.tracked hb
    refine ⟨?_, ?_, ?_⟩
    · intro _
      refine ⟨?_, hm⟩
      show lifeFor n (w.events ++ (pruneAux attrs w.cycleM w.propsU w.tracked).2) = _
      rw [lifeFor_append, ha, he]
      rfl
    · intro hcon
      rw [show (postPrune attrs w).propsU n = w.propsU n from rfl, hflag'] at hcon
      simp at hcon
    · intro hcon
      rw [show (postPrune attrs w).propsU n = w.propsU n from rfl, hflag'] at hcon
      simp at hcon

theorem world0_inv (attrs : Nat → UNode) (n : Nat) : NodeInv attrs n world0 := by
  refine ⟨?_, ?_, ?_⟩
  · intro _
    exact ⟨rfl, List.not_mem_nil n⟩
  · intro hcon
    simp [world0] at hcon
  · intro hcon
    simp [world0] at hcon

theorem updateU_inv (attrs : Nat → UNode) (n : Nat) (present : List Nat) (w : UWorld)
    (h : NodeInv attrs n w) : NodeInv attrs n (updateU attrs present w) := by
  have h1 : NodeInv attrs n { w with cycleM := !w.cycleM } := h
  exact postPrune_inv attrs n _ (foldl_stamp_inv attrs n present _ h1)

theorem runU_inv (attrs : Nat → UNode) (n : Nat) (frames : List (List Nat)) :
    NodeInv attrs n (runU attrs frames) := by
  suffices hgen : ∀ (fr : List (List Nat)) (w : UWorld), NodeInv attrs n w →
      NodeInv attrs n (fr.foldl (fun w p => updateU attrs p w) w) from
    hgen frames world0 (world0_inv attrs n)
  intro fr
  induction fr with
  | nil => intro w h; exact h
  | cons p rest ih =>
    intro w h
    rw [List.foldl_cons]
    exact ih _ (updateU_inv attrs n p w h)

/-- C3: over any sequence of `update` calls from a fresh manager, node
N's Init/Deinit trace is a sublist of `[Init, Deinit]` — Init fires at
most once over N's lifetime, Deinit at most once and never before Init —
and at any point of the run at which a Deinit for N has been queued, N's
`$init` marker is set. -/
theorem c3_update_lifecycle (attrs : Nat → UNode) (frames : List (List Nat)) (n : Nat) :
    (lifeFor n (runU attrs frames).events).Sublist
      [UEventTy.evInit, UEventTy.evDeinit] ∧
    (∀ k, UEventTy.evDeinit ∈ lifeFor n (runU attrs (frames.take k)).events →
      ((runU attrs (frames.take k)).propsU n).initFlag = true) := by
  constructor
  · obtain ⟨h1, h2, h3⟩ := runU_inv attrs n frames
    by_cases hf : ((runU attrs frames).propsU n).initFlag = true
    · by_cases hm : n ∈ (runU attrs frames).tracked
      · rw [(h2 hf hm).2]
        by_cases hi : (attrs n).on_init
        · have he : initTrace attrs n = [UEventTy.evInit] := by simp [initTrace, hi]
          rw [he]
          exact List.Sublist.cons₂ _ (List.Sublist.cons _ List.Sublist.slnil)
        · have he : initTrace attrs n = [] := by simp [initTrace, hi]
          rw [he]
          exact List.nil_sublist _
      · rw [h3 hf hm]
        by_cases hi : (attrs n).on_init <;> by_cases hd : (attrs n).on_deinit
        · have he : initTrace attrs n ++ deinitTrace attrs n =
              [UEventTy.evInit, UEventTy.evDeinit] := by
            simp [initTrace, deinitTrace, hi, hd]
          rw [he]
        · have he : initTrace attrs n ++ deinitTrace attrs n = [UEventTy.evInit] := by
            simp [initTrace, deinitTrace, hi, hd]
          rw [he]
          exact List.Sublist.cons₂ _ (List.Sublist.cons _ List.Sublist.slnil)
        · have he : initTrace attrs n ++ deinitTrace attrs n = [UEventTy.evDeinit] := by
            simp [initTrace, deinitTrace, hi, hd]
          rw [he]
          exact List.Sublist.cons _ (List.Sublist.cons₂ _ List.Sublist.slnil)
        · have he : initTrace attrs n ++ deinitTrace attrs n = [] := by
            simp [initTrace, deinitTrace, hi, hd]
          rw [he]
          exact List.nil_sublist _
    · have hf' : ((runU attrs frames).propsU n).initFlag = false := by
        simpa using hf
      rw [(h1 hf').1]
      exact List.nil_sublist _
  · intro k hmem
    obtain ⟨h1, h2, h3⟩ := runU_inv attrs n (frames.take k)
    by_cases hf : ((runU attrs (frames.take k)).propsU n).initFlag = true
    · exact hf
    · have hf' : ((runU attrs (frames.take k)).propsU n).initFlag = false := by
        simpa using hf
      rw [(h1 hf').1] at hmem
      simp at hmem

/-- C3 witness inputs: one node (id 0) with all attributes set, present
in frame 1 and absent in frame 2, so it is initialized and then pruned. -/
def wAttrs : Nat → UNode := fun _ =>
  { has_layout := true, on_init := true, on_deinit := true, on_update := true }

def wFrames : List (List Nat) := [[0], []]

theorem c3_update_lifecycle_witness :
    (lifeFor 0 (runU wAttrs wFrames).events).Sublist
      [UEventTy.evInit, UEventTy.evDeinit] ∧
    (UEventTy.evDeinit ∈ lifeFor 0 (runU wAttrs (wFrames.take 2)).events ∧
      ((runU wAttrs (wFrames.take 2)).propsU 0).initFlag = true) :=
  ⟨(c3_update_lifecycle wAttrs wFrames 0).1,
    by decide,
    (c3_update_lifecycle wAttrs wFrames 0).2 2 (by decide)⟩

/-! ## Focus and hover (`Manager::focus_node`, `cycle_focus`,
`mouse_move`; mod.rs lines 249-390)

Nodes carry a `Nat` id; `is_same` is id equality (the id stands for the
reference identity of the `Rc` node handle), so node lists are assumed
duplicate-free where the source relies on reference identity. The static
attributes read through `get_value` (`can_focus`, `can_hover`, handler
presence) live on the node; the mutable `focused`/`hover` properties are
id-indexed maps. A weak reference upgrade succeeds exactly when the id is
still in the tree's query result list. Event payloads (mouse coordinates)
are dropped: only the target node and which handler fired matter to the
claims. -/

/-- A node as seen by the focus/hover code: id plus the consulted
attribute values. -/
structure FNode where
  idf : Nat
  can_focus : Bool
  can_hover : Bool
  on_focus : Bool
  on_unfocus : Bool
  on_mouse_move_over : Bool
  on_mouse_move_out : Bool
  on_mouse_move : Bool
deriving Repr, DecidableEq

/-- Which handler an event was queued for. -/
inductive FEvTy where
  | evFocus
  | evUnfocus
  | evMoveOver
  | evMoveOut
  | evMove
deriving Repr, DecidableEq

/-- A queued `NodeEvent` of the focus/hover subsystem. -/
structure FEvent where
  node : Nat
  ty : FEvTy
deriving Repr, DecidableEq

/-- Manager state for focus and hover: the tree's query-order node list,
the two weak references, the mutable properties, and the event queue. -/
structure FMState where
  nodes : List FNode
  current_focus : Option Nat
  last_hover : Option Nat
  focusedProp : Nat → Bool
  hoverProp : Nat → Bool
  eventsF : List FEvent

/-- `self.events.push(...)`. -/
def FMState.pushEv (s : FMState) (e : FEvent) : FMState :=
  { s with eventsF := s.eventsF ++ [e] }

/-- `node.set_property("focused", b)`. -/
def setFocusedProp (s : FMState) (n : Nat) (b : Bool) : FMState :=
  { s with focusedProp := fun k => if k = n then b else s.focusedProp k }

/-- `node.set_property("hover", b)`. -/
def setHoverProp (s : FMState) (n : Nat) (b : Bool) : FMState :=
  { s with hoverProp := fun k => if k = n then b else s.hoverProp k }

/-- Look a node handle up by id in the tree. -/
def findNode (s : FMState) (c : Nat) : Option FNode :=
  s.nodes.find? (fun m => m.idf == c)

/-- `self.current_focus.as_ref().and_then(|v| v.upgrade())`,
yielding the node handle. -/
def aliveFocusNode (s : FMState) : Option FNode :=
  s.current_focus.bind (findNode s)

/-- The same upgrade, by id. -/
def aliveFocusId (s : FMState) : Option Nat :=
  s.current_focus.bind fun c =>
    if s.nodes.any (fun m => m.idf == c) then some c else none

/-- `self.last_hover.as_ref().and_then(|v| v.upgrade())`. -/
def aliveHoverNode (s : FMState) : Option FNode :=
  s.last_hover.bind (findNode s)

/-- `Manager::focus_node` (mod.rs lines 320-343): unfocus the current
target (property false plus Unfocus event when a handler is declared),
then set the new target (weak ref, property true, Focus event when a
handler is declared). -/
def focus_node (s : FMState) (n : FNode) : FMState :=
  let s1 :=
    match aliveFocusNode s with
    | some cur =>
      let sa := setFocusedProp s cur.idf false
      if cur.on_unfocus then sa.pushEv { node := cur.idf, ty := FEvTy.evUnfocus } else sa
    | none => s
  let s2 := { s1 with current_focus := some n.idf }
  let s3 := setFocusedProp s2 n.idf true
  if n.on_focus then s3.pushEv { node := n.idf, ty := FEvTy.evFocus } else s3

/-- Loop state of `cycle_focus`: the manager state, the local `current`
variable (an upgraded node, by id), and the `can_loop` flag. -/
structure CState where
  fs : FMState
  currentC : Option Nat
  can_loop : Bool

/-- The inner `for node in matches.iter().rev()` loop of `cycle_focus`
(mod.rs lines 359-384), over the already-reversed list: unfocus the node
matching `current` and keep scanning with `can_loop = true`; once
`current` is cleared, focus the first node with `can_focus` and stop the
loop (`can_loop = false`, break). -/
def cfScan : List FNode → CState → CState
  | [], st => st
  | node :: rest, st =>
    if st.currentC = some node.idf then
      let sa := setFocusedProp st.fs node.idf false
      let sb := if node.on_unfocus then sa.pushEv { node := node.idf, ty := FEvTy.evUnfocus }
                else sa
      cfScan rest { fs := sb, currentC := none, can_loop := true }
    else if st.currentC = none ∧ node.can_focus = true then
      let sa := setFocusedProp st.fs node.idf true
      let sb := if node.on_focus then sa.pushEv { node := node.idf, ty := FEvTy.evFocus }
                else sa
      { fs := { sb with current_focus := some node.idf }
        currentC := st.currentC
        can_loop := false }
    else cfScan rest st

/-- One iteration of the `while can_loop` body: reset `can_loop`, run the
scan, then the trailing `if current.is_some()` restart check (mod.rs
lines 385-388). -/
def cfBody (st : CState) : CState :=
  let st1 := cfScan st.fs.nodes.reverse { st with can_loop := false }
  if st1.currentC.isSome then { st1 with currentC := none, can_loop := true } else st1

/-- The `while can_loop` loop with explicit fuel. -/
def cfLoop : Nat → CState → CState
  | 0, st => st
  | fuel + 1, st => if st.can_loop then cfLoop fuel (cfBody st) else st

theorem cfLoop_succ (fuel : Nat) (st : CState) :
    cfLoop (fuel + 1) st = if st.can_loop then cfLoop fuel (cfBody st) else st := rfl

/-- `Manager::cycle_focus` (mod.rs lines 347-390): upgrade the current
focus, then run the restart loop. The fuel `nodes.length + 2` is an upper
bound; the loop in fact always stops within two iterations (see the C6
theorem). -/
def cycle_focus (s : FMState) : FMState :=
  (cfLoop (s.nodes.length + 2)
    { fs := s, currentC := aliveFocusId s, can_loop := true }).fs

theorem cfScan_none (rev : List FNode) :
    ∀ (st : CState), st.currentC = none → st.can_loop = false →
      (cfScan rev st).currentC = none ∧ (cfScan rev st).can_loop = false := by
  induction rev with
  | nil => intro st h1 h2; exact ⟨h1, h2⟩
  | cons node rest ih =>
    intro st h1 h2
    by_cases h : node.can_focus = true
    · simp [cfScan, h1, h]
    · simpa [cfScan, h1, h] using ih st h1 h2

theorem cfBody_currentC (st : CState) : (cfBody st).currentC = none := by
  simp only [cfBody]
  split_ifs with h
  · rfl
  · rcases hc : (cfScan st.fs.nodes.reverse { st with can_loop := false }).currentC with _ | c
    · rfl
    · rw [hc] at h
      simp at h

theorem cfBody_stops (st : CState) (h : st.currentC = none) :
    (cfBody st).can_loop = false := by
  simp only [cfBody]
  obtain ⟨ha, hb⟩ := cfScan_none st.fs.nodes.reverse { st with can_loop := false } h rfl
  split_ifs with hs
  · rw [ha] at hs
    simp at hs
  · exact hb

theorem cfLoop_stopped (st : CState) (h : st.can_loop = false) :
    ∀ fuel, cfLoop fuel st = st := by
  intro fuel
  cases fuel with
  | zero => rfl
  | succ f => simp [cfLoop, h]

theorem cfBody_twice_stops (st : CState) : (cfBody (cfBody st)).can_loop = false :=
  cfBody_stops _ (cfBody_currentC st)

theorem cfLoop_eq_two (st : CState) (fuel : Nat) (hf : 2 ≤ fuel) :
    cfLoop fuel st = cfLoop 2 st := by
  obtain ⟨m, rfl⟩ : ∃ m, fuel = m + 2 := ⟨fuel - 2, by omega⟩
  rcases hc1 : st.can_loop with _ | _
  · rw [cfLoop_stopped st hc1, cfLoop_stopped st hc1]
  · have e1 : cfLoop (m + 2) st = cfLoop (m + 1) (cfBody st) := by
      rw [show m + 2 = (m + 1) + 1 from rfl, cfLoop_succ, if_pos hc1]
    have e2 : cfLoop 2 st = cfLoop 1 (cfBody st) := by
      rw [show (2 : Nat) = 1 + 1 from rfl, cfLoop_succ, if_pos hc1]
    rw [e1, e2]
    rcases hc2 : (cfBody st).can_loop with _ | _
    · rw [cfLoop_stopped _ hc2, cfLoop_stopped _ hc2]
    · have e3 : cfLoop (m + 1) (cfBody st) = cfLoop m (cfBody (cfBody st)) := by
        rw [cfLoop_succ, if_pos hc2]
      have e4 : cfLoop 1 (cfBody st) = cfLoop 0 (cfBody (cfBody st)) := by
        rw [show (1 : Nat) = 0 + 1 from rfl, cfLoop_succ, if_pos hc2]
      rw [e3, e4, cfLoop_stopped _ (cfBody_twice_stops st)]
      rfl

/-- C6: `cycle_focus` terminates on every tree and focus state — two
iterations of the restart loop always suffice: after at most two passes
`can_loop` is false, and with any fuel of at least 2 the loop computes
the same result as with fuel exactly 2 (so `cycle_focus`, which uses
fuel `nodes.length + 2`, never exhausts its fuel). -/
theorem c6_cycle_focus_terminates (st : CState) :
    (cfBody (cfBody st)).can_loop = false ∧
    (∀ fuel, 2 ≤ fuel → cfLoop fuel st = cfLoop 2 st) ∧
    (∀ s : FMState, cycle_focus s =
      (cfLoop 2 { fs := s, currentC := aliveFocusId s, can_loop := true }).fs) := by
  refine ⟨cfBody_twice_stops st, fun fuel hf => cfLoop_eq_two st fuel hf, ?_⟩
  intro s
  rw [cycle_focus, cfLoop_eq_two _ (s.nodes.length + 2) (by omega)]

/-- C6 witness: a single non-focusable node (the pathological case named
by the spec) with a live focus on it. -/
def c6Node : FNode :=
  { idf := 0, can_focus := false, can_hover := false, on_focus := false,
    on_unfocus := false, on_mouse_move_over := false, on_mouse_move_out := false,
    on_mouse_move := false }

def c6State : CState :=
  { fs :=
      { nodes := [c6Node]
        current_focus := some 0
        last_hover := none
        focusedProp := fun _ => false
        hoverProp := fun _ => false
        eventsF := [] }
    currentC := some 0
    can_loop := true }

theorem c6_cycle_focus_terminates_witness :
    (cfBody (cfBody c6State)).can_loop = false ∧
    cfLoop 3 c6State = cfLoop 2 c6State :=
  ⟨(c6_cycle_focus_terminates c6State).1,
    (c6_cycle_focus_terminates c6State).2.1 3 (by omega)⟩

/-- C10: calling `focus_node(n)` when `n` is already the live focus
target first sets `focused` to false and queues Unfocus for `n` (handler
declared), then sets `focused` back to true and queues Focus for `n`
(handler declared), Unfocus before Focus, and `n` stays the tracked
focus target. -/
theorem c10_refocus_same_node (s : FMState) (n : FNode)
    (hcur : s.current_focus = some n.idf)
    (hfind : findNode s n.idf = some n)
    (hunf : n.on_unfocus = true) (hfoc : n.on_focus = true) :
    (focus_node s n).eventsF =
      s.eventsF ++ [{ node := n.idf, ty := FEvTy.evUnfocus },
                    { node := n.idf, ty := FEvTy.evFocus }] ∧
    (focus_node s n).focusedProp n.idf = true ∧
    (focus_node s n).current_focus = some n.idf := by
  have halive : aliveFocusNode s = some n := by
    rw [aliveFocusNode, hcur]
    exact hfind
  refine ⟨?_, ?_, ?_⟩ <;>
    simp [focus_node, halive, hunf, hfoc, setFocusedProp, FMState.pushEv]

/-- C10 witness: a concrete one-node tree focused on that node. -/
def c10Node : FNode :=
  { idf := 7, can_focus := true, can_hover := false, on_focus := true,
    on_unfocus := true, on_mouse_move_over := false, on_mouse_move_out := false,
    on_mouse_move := false }

def c10State : FMState :=
  { nodes := [c10Node]
    current_focus := some 7
    last_hover := none
    focusedProp := fun k => k = 7
    hoverProp := fun _ => false
    eventsF := [] }

theorem c10_refocus_same_node_witness :
    (focus_node c10State c10Node).eventsF =
      c10State.eventsF ++ [{ node := c10Node.idf, ty := FEvTy.evUnfocus },
                           { node := c10Node.idf, ty := FEvTy.evFocus }] ∧
    (focus_node c10State c10Node).focusedProp c10Node.idf = true ∧
    (focus_node c10State c10Node).current_focus = some c10Node.idf :=
  c10_refocus_same_node c10State c10Node rfl (by decide) rfl rfl

/-- The `if let Some(last_hover) = self.last_hover.take().and_then(upgrade)`
block of `mouse_move`: `take()` clears `last_hover` unconditionally; when
the old weak reference still upgrades, its `hover` property is cleared
and `on_mouse_move_out` is queued when declared. -/
def hoverOutBlock (s : FMState) : FMState :=
  match aliveHoverNode s with
  | some lh =>
    let sa := { s with last_hover := none }
    let sb := setHoverProp sa lh.idf false
    if lh.on_mouse_move_out then sb.pushEv { node := lh.idf, ty := FEvTy.evMoveOut } else sb
  | none => { s with last_hover := none }

/-- `Manager::mouse_move` (mod.rs lines 249-317) over the hit-test result
list of `query_at(x, y)`: take the first hoverable node; when it differs
from the live previous hover (or there is none), run the out block on the
old node, set hover and `last_hover` on the new one and queue
`on_mouse_move_over`; always queue `on_mouse_move`; return true. When no
hit node is hoverable, run the out block and return false. -/
def mouse_move (s : FMState) : List FNode → FMState × Bool
  | [] => (hoverOutBlock s, false)
  | node :: rest =>
    if node.can_hover = true then
      let s1 :=
        if (aliveHoverNode s).all (fun v => v.idf != node.idf) then
          let sa := hoverOutBlock s
          let sb := setHoverProp sa node.idf true
          let sc := { sb with last_hover := some node.idf }
          if node.on_mouse_move_over then
            sc.pushEv { node := node.idf, ty := FEvTy.evMoveOver }
          else sc
        else s
      let s2 :=
        if node.on_mouse_move then s1.pushEv { node := node.idf, ty := FEvTy.evMove } else s1
      (s2, true)
    else mouse_move s rest

theorem mouse_move_to_empty (s : FMState) :
    ∀ (hits : List FNode) (a : FNode),
      aliveHoverNode s = some a → a.on_mouse_move_out = true →
      (∀ h ∈ hits, h.can_hover = false) →
      (mouse_move s hits).1.eventsF =
        s.eventsF ++ [{ node := a.idf, ty := FEvTy.evMoveOut }] ∧
      (mouse_move s hits).1.hoverProp a.idf = false ∧
      (mouse_move s hits).1.last_hover = none := by
  intro hits
  induction hits with
  | nil =>
    intro a halive hout _
    refine ⟨?_, ?_, ?_⟩ <;>
      simp [mouse_move, hoverOutBlock, halive, hout, setHoverProp, FMState.pushEv]
  | cons node rest ih =>
    intro a halive hout hno
    have hh : node.can_hover = false := hno node (List.mem_cons_self _ _)
    have hrest : ∀ h ∈ rest, h.can_hover = false :=
      fun h hm => hno h (List.mem_cons_of_mem _ hm)
    have hstep : mouse_move s (node :: rest) = mouse_move s rest := by
      simp [mouse_move, hh]
    rw [hstep]
    exact ih a halive hout hrest

theorem mouse_move_onto_node (s : FMState) (hlast : s.last_hover = none) :
    ∀ (pre : List FNode) (b : FNode) (rest : List FNode),
      (∀ h ∈ pre, h.can_hover = false) →
      b.can_hover = true → b.on_mouse_move_over = true →
      (mouse_move s (pre ++ b :: rest)).1.hoverProp b.idf = true ∧
      (mouse_move s (pre ++ b :: rest)).1.last_hover = some b.idf ∧
      (mouse_move s (pre ++ b :: rest)).1.eventsF =
        s.eventsF ++ [{ node := b.idf, ty := FEvTy.evMoveOver }] ++
          (if b.on_mouse_move = true then [{ node := b.idf, ty := FEvTy.evMove }]
           else []) := by
  have halive : aliveHoverNode s = none := by
    rw [aliveHoverNode, hlast]
    rfl
  intro pre
  induction pre with
  | nil =>
    intro b rest _ hb hov
    by_cases hmv : b.on_mouse_move = true <;>
      refine ⟨?_, ?_, ?_⟩ <;>
        simp [mouse_move, hb, halive, hov, hmv, hoverOutBlock, setHoverProp,
          FMState.pushEv, Option.all]
  | cons p pre' ih =>
    intro b rest hpre hb hov
    have hh : p.can_hover = false := hpre p (List.mem_cons_self _ _)
    have hrest : ∀ h ∈ pre', h.can_hover = false :=
      fun h hm => hpre h (List.mem_cons_of_mem _ hm)
    have hstep : mouse_move s ((p :: pre') ++ b :: rest) = mouse_move s (pre' ++ b :: rest) := by
      simp [mouse_move, hh]
    rw [hstep]
    exact ih b rest hrest hb hov

theorem mouse_move_no_both (s : FMState) (hemp : s.eventsF = []) :
    ∀ (hits : List FNode) (n : Nat),
      ¬({ node := n, ty := FEvTy.evMoveOver } ∈ (mouse_move s hits).1.eventsF ∧
        { node := n, ty := FEvTy.evMoveOut } ∈ (mouse_move s hits).1.eventsF) := by
  intro hits
  induction hits with
  | nil =>
    intro n hcon
    rcases halive : aliveHoverNode s with _ | lh
    · simp [mouse_move, hoverOutBlock, halive, hemp] at hcon
    · by_cases hout : lh.on_mouse_move_out = true <;>
        simp [mouse_move, hoverOutBlock, halive, hemp, hout, setHoverProp,
          FMState.pushEv] at hcon
  | cons node rest ih =>
    intro n
    by_cases hh : node.can_hover = true
    · intro hcon
      by_cases hdiff : ((aliveHoverNode s).all (fun v => v.idf != node.idf)) = true
      · rcases halive : aliveHoverNode s with _ | lh
        · by_cases hov : node.on_mouse_move_over = true <;>
            by_cases hmv : node.on_mouse_move = true <;>
            simp [mouse_move, hh, hdiff, halive, hoverOutBlock, hemp, hov, hmv,
              setHoverProp, FMState.pushEv] at hcon
        · have hne : lh.idf ≠ node.idf := by
            rw [halive] at hdiff
            simpa [Option.all] using hdiff
          by_cases hout : lh.on_mouse_move_out = true <;>
            by_cases hov : node.on_mouse_move_over = true <;>
            by_cases hmv : node.on_mouse_move = true <;>
            simp [mouse_move, hh, halive, hoverOutBlock, hemp, hout, hov, hmv, hne,
              setHoverProp, FMState.pushEv] at hcon <;>
            omega
      · by_cases hmv : node.on_mouse_move = true <;>
          simp [mouse_move, hh, hdiff, hemp, hmv, FMState.pushEv] at hcon
    · simpa [mouse_move, hh] using ih n

/-- C7: in a single `mouse_move` call, (a) moving from a live hovered
node to a point with no hoverable node clears the old node's hover
property and queues its `on_mouse_move_out`; (b) moving from no hover
onto the first hoverable node B sets B's hover property, records it as
the hover target and queues `on_mouse_move_over` (followed only by an
optional `on_mouse_move`); and (c) the call never queues both an over
and an out event for the same node. -/
theorem c7_mouse_move_hover :
    (∀ (s : FMState) (hits : List FNode) (a : FNode),
      aliveHoverNode s = some a → a.on_mouse_move_out = true →
      (∀ h ∈ hits, h.can_hover = false) →
      (mouse_move s hits).1.eventsF =
        s.eventsF ++ [{ node := a.idf, ty := FEvTy.evMoveOut }] ∧
      (mouse_move s hits).1.hoverProp a.idf = false ∧
      (mouse_move s hits).1.last_hover = none) ∧
    (∀ (s : FMState) (pre : List FNode) (b : FNode) (rest : List FNode),
      s.last_hover = none → (∀ h ∈ pre, h.can_hover = false) →
      b.can_hover = true → b.on_mouse_move_over = true →
      (mouse_move s (pre ++ b :: rest)).1.hoverProp b.idf = true ∧
      (mouse_move s (pre ++ b :: rest)).1.last_hover = some b.idf ∧
      (mouse_move s (pre ++ b :: rest)).1.eventsF =
        s.eventsF ++ [{ node := b.idf, ty := FEvTy.evMoveOver }] ++
          (if b.on_mouse_move = true then [{ node := b.idf, ty := FEvTy.evMove }]
           else [])) ∧
    (∀ (s : FMState) (hits : List FNode) (n : Nat), s.eventsF = [] →
      ¬({ node := n, ty := FEvTy.evMoveOver } ∈ (mouse_move s hits).1.eventsF ∧
        { node := n, ty := FEvTy.evMoveOut } ∈ (mouse_move s hits).1.eventsF)) :=
  ⟨fun s hits a h1 h2 h3 => mouse_move_to_empty s hits a h1 h2 h3,
   fun s pre b rest h1 h2 h3 h4 => mouse_move_onto_node s h1 pre b rest h2 h3 h4,
   fun s hits n h => mouse_move_no_both s h hits n⟩

/-- C7 witness inputs: one hoverable node with over/out handlers. -/
def c7A : FNode :=
  { idf := 1, can_focus := false, can_hover := true, on_focus := false,
    on_unfocus := false, on_mouse_move_over := true, on_mouse_move_out := true,
    on_mouse_move := false }

def c7S1 : FMState :=
  { nodes := [c7A]
    current_focus := none
    last_hover := some 1
    focusedProp := fun _ => false
    hoverProp := fun k => k = 1
    eventsF := [] }

def c7S2 : FMState :=
  { nodes := [c7A]
    current_focus := none
    last_hover := none
    focusedProp := fun _ => false
    hoverProp := fun _ => false
    eventsF := [] }

theorem c7_mouse_move_hover_witness :
    ((mouse_move c7S1 []).1.eventsF =
        c7S1.eventsF ++ [{ node := c7A.idf, ty := FEvTy.evMoveOut }] ∧
      (mouse_move c7S1 []).1.hoverProp c7A.idf = false ∧
      (mouse_move c7S1 []).1.last_hover = none) ∧
    ((mouse_move c7S2 ([] ++ c7A :: [])).1.hoverProp c7A.idf = true ∧
      (mouse_move c7S2 ([] ++ c7A :: [])).1.last_hover = some c7A.idf ∧
      (mouse_move c7S2 ([] ++ c7A :: [])).1.eventsF =
        c7S2.eventsF ++ [{ node := c7A.idf, ty := FEvTy.evMoveOver }] ++
          (if c7A.on_mouse_move = true then [{ node := c7A.idf, ty := FEvTy.evMove }]
           else [])) ∧
    ¬({ node := 1, ty := FEvTy.evMoveOver } ∈ (mouse_move c7S1 []).1.eventsF ∧
      { node := 1, ty := FEvTy.evMoveOut } ∈ (mouse_move c7S1 []).1.eventsF) :=
  ⟨c7_mouse_move_hover.1 c7S1 [] c7A rfl rfl (by simp),
   c7_mouse_move_hover.2.1 c7S2 [] c7A [] rfl (by simp) rfl rfl,
   c7_mouse_move_hover.2.2 c7S1 [] 1 rfl⟩

/-- Node ids of a node list, in order. -/
def idsOf (l : List FNode) : List Nat := l.map FNode.idf

theorem find?_eq_filter_head {α : Type} (p : α → Bool) :
    ∀ (l : List α), l.find? p = (l.filter p).head? := by
  intro l
  induction l with
  | nil => rfl
  | cons a rest ih =>
    by_cases hp : p a = true
    · rw [List.find?_cons_of_pos _ hp, List.filter_cons_of_pos hp]
      rfl
    · have hp' : p a = false := by simpa using hp
      rw [List.find?_cons_of_neg _ (by simp [hp']), List.filter_cons_of_neg (by simp [hp']), ih]

theorem filter_split {α : Type} (p : α → Bool) :
    ∀ (l : List α) (a : α) (as : List α), l.filter p = a :: as →
      ∃ l₁ l₂, l = l₁ ++ a :: l₂ ∧ (∀ x ∈ l₁, p x = false) ∧ p a = true ∧
        l₂.filter p = as := by
  intro l
  induction l with
  | nil => intro a as h; simp at h
  | cons x rest ih =>
    intro a as h
    by_cases hp : p x = true
    · rw [List.filter_cons_of_pos hp] at h
      injection h with h1 h2
      subst h1
      exact ⟨[], rest, by simp, by simp, hp, h2⟩
    · have hp' : p x = false := by simpa using hp
      rw [List.filter_cons_of_neg (by simp [hp'])] at h
      obtain ⟨l₁, l₂, he, hfree, hpa, hrest⟩ := ih a as h
      refine ⟨x :: l₁, l₂, by rw [he]; rfl, ?_, hpa, hrest⟩
      intro y hy
      rcases List.mem_cons.mp hy with hy | hy
      · rw [hy]; exact hp'
      · exact hfree y hy

theorem cfScan_none_spec (rev : List FNode) :
    ∀ (st : CState), st.currentC = none →
      (cfScan rev st).currentC = none ∧
      (cfScan rev st).fs.nodes = st.fs.nodes ∧
      (∀ f, rev.find? (fun m => m.can_focus) = some f →
        (cfScan rev st).fs.current_focus = some f.idf ∧ (cfScan rev st).can_loop = false) ∧
      (rev.find? (fun m => m.can_focus) = none →
        (cfScan rev st).fs.current_focus = st.fs.current_focus ∧
        (cfScan rev st).can_loop = st.can_loop) := by
  induction rev with
  | nil =>
    intro st h
    exact ⟨h, rfl, fun f hf => absurd hf (by simp), fun _ => ⟨rfl, rfl⟩⟩
  | cons node rest ih =>
    intro st h
    by_cases hf : node.can_focus = true
    · have hfind : (node :: rest).find? (fun m => m.can_focus) = some node :=
        List.find?_cons_of_pos _ hf
      have hc1 : ¬(st.currentC = some node.idf) := by
        rw [h]
        exact fun he => Option.noConfusion he
      have hcnd : st.currentC = none ∧ node.can_focus = true := ⟨h, hf⟩
      have hstep : cfScan (node :: rest) st =
          { fs :=
              { (if node.on_focus = true then
                  (setFocusedProp st.fs node.idf true).pushEv
                    { node := node.idf, ty := FEvTy.evFocus }
                else setFocusedProp st.fs node.idf true) with
                  current_focus := some node.idf }
            currentC := st.currentC
            can_loop := false } := by
        simp only [cfScan]
        rw [if_neg hc1, if_pos hcnd]
      refine ⟨?_, ?_, ?_, ?_⟩
      · rw [hstep]
        exact h
      · rw [hstep]
        by_cases ho : node.on_focus = true <;> simp [ho, setFocusedProp, FMState.pushEv]
      · intro f hf2
        rw [hfind] at hf2
        injection hf2 with hf2
        subst hf2
        rw [hstep]
        exact ⟨rfl, rfl⟩
      · intro hf2
        rw [hfind] at hf2
        exact Option.noConfusion hf2
    · have hfind : (node :: rest).find? (fun m => m.can_focus) =
          rest.find? (fun m => m.can_focus) :=
        List.find?_cons_of_neg _ (by simp [hf])
      have hstep : cfScan (node :: rest) st = cfScan rest st := by
        simp [cfScan, h, hf]
      obtain ⟨i1, i2, i3, i4⟩ := ih st h
      refine ⟨by rw [hstep]; exact i1, by rw [hstep]; exact i2, ?_, ?_⟩
      · intro f hf2
        rw [hfind] at hf2
        rw [hstep]
        exact i3 f hf2
      · intro hf2
        rw [hfind] at hf2
        rw [hstep]
        exact i4 hf2

theorem cfScan_some_spec (cnode : FNode) :
    ∀ (P : List FNode) (S : List FNode) (st : CState),
      st.currentC = some cnode.idf →
      (∀ p ∈ P, p.idf ≠ cnode.idf) →
      (cfScan (P ++ cnode :: S) st).currentC = none ∧
      (cfScan (P ++ cnode :: S) st).fs.nodes = st.fs.nodes ∧
      (∀ f, S.find? (fun m => m.can_focus) = some f →
        (cfScan (P ++ cnode :: S) st).fs.current_focus = some f.idf ∧
        (cfScan (P ++ cnode :: S) st).can_loop = false) ∧
      (S.find? (fun m => m.can_focus) = none →
        (cfScan (P ++ cnode :: S) st).fs.current_focus = st.fs.current_focus ∧
        (cfScan (P ++ cnode :: S) st).can_loop = true) := by
  intro P
  induction P with
  | nil =>
    intro S st h _
    have hstep : cfScan ([] ++ cnode :: S) st =
        cfScan S
          { fs :=
              if cnode.on_unfocus = true then
                (setFocusedProp st.fs cnode.idf false).pushEv
                  { node := cnode.idf, ty := FEvTy.evUnfocus }
              else setFocusedProp st.fs cnode.idf false
            currentC := none
            can_loop := true } := by
      rw [List.nil_append]
      simp only [cfScan]
      rw [if_pos h]
    obtain ⟨sc1, sc2, sc3, sc4⟩ := cfScan_none_spec S
      { fs :=
          if cnode.on_unfocus = true then
            (setFocusedProp st.fs cnode.idf false).pushEv
              { node := cnode.idf, ty := FEvTy.evUnfocus }
          else setFocusedProp st.fs cnode.idf false
        currentC := none
        can_loop := true } rfl
    have hnodes :
        (if cnode.on_unfocus = true then
            (setFocusedProp st.fs cnode.idf false).pushEv
              { node := cnode.idf, ty := FEvTy.evUnfocus }
          else setFocusedProp st.fs cnode.idf false).nodes = st.fs.nodes := by
      split_ifs <;> simp [setFocusedProp, FMState.pushEv]
    have hcf :
        (if cnode.on_unfocus = true then
            (setFocusedProp st.fs cnode.idf false).pushEv
              { node := cnode.idf, ty := FEvTy.evUnfocus }
          else setFocusedProp st.fs cnode.idf false).current_focus =
          st.fs.current_focus := by
      split_ifs <;> simp [setFocusedProp, FMState.pushEv]
    refine ⟨by rw [hstep]; exact sc1, by rw [hstep, sc2]; exact hnodes, ?_, ?_⟩
    · intro f hf
      rw [hstep]
      exact sc3 f hf
    · intro hf
      obtain ⟨m1, m2⟩ := sc4 hf
      exact ⟨by rw [hstep, m1]; exact hcf, by rw [hstep]; exact m2⟩
  | cons p P' ih =>
    intro S st h hP
    have hne : p.idf ≠ cnode.idf := hP p (List.mem_cons_self _ _)
    have hc1 : ¬(st.currentC = some p.idf) := by
      rw [h]
      intro he
      exact hne (Option.some.inj he).symm
    have hc2 : ¬(st.currentC = none ∧ p.can_focus = true) := by
      rw [h]
      rintro ⟨he, -⟩
      exact Option.noConfusion he
    have hstep : cfScan ((p :: P') ++ cnode :: S) st = cfScan (P' ++ cnode :: S) st := by
      rw [List.cons_append]
      simp only [cfScan]
      rw [if_neg hc1, if_neg hc2]
    rw [hstep]
    exact ih S st h (fun q hq => hP q (List.mem_cons_of_mem _ hq))

theorem cycle_focus_eq_two (s : FMState) :
    cycle_focus s =
      (cfLoop 2 { fs := s, currentC := aliveFocusId s, can_loop := true }).fs := by
  rw [cycle_focus, cfLoop_eq_two _ (s.nodes.length + 2) (by omega)]

theorem cycle_focus_of_none (s : FMState) (hcur : aliveFocusId s = none) :
    (cycle_focus s).nodes = s.nodes ∧
    (∀ f, (s.nodes.reverse).find? (fun m => m.can_focus) = some f →
      (cycle_focus s).current_focus = some f.idf) ∧
    ((s.nodes.reverse).find? (fun m => m.can_focus) = none →
      (cycle_focus s).current_focus = s.current_focus) := by
  rw [cycle_focus_eq_two, hcur]
  have e1 : cfLoop 2 { fs := s, currentC := none, can_loop := true } =
      cfLoop 1 (cfBody { fs := s, currentC := none, can_loop := true }) := by
    rw [show (2 : Nat) = 1 + 1 from rfl, cfLoop_succ, if_pos rfl]
  rw [e1]
  obtain ⟨sc1, sc2, sc3, sc4⟩ := cfScan_none_spec s.nodes.reverse
    { fs := s, currentC := none, can_loop := false } rfl
  have hnotsome : ¬((cfScan s.nodes.reverse
      { fs := s, currentC := none, can_loop := false }).currentC.isSome = true) := by
    rw [sc1]
    simp
  have hbody : cfBody { fs := s, currentC := none, can_loop := true } =
      cfScan s.nodes.reverse { fs := s, currentC := none, can_loop := false } := by
    simp only [cfBody]
    rw [if_neg hnotsome]
  rw [hbody]
  have hcl : (cfScan s.nodes.reverse
      { fs := s, currentC := none, can_loop := false }).can_loop = false := by
    rcases hfind : s.nodes.reverse.find? (fun m => m.can_focus) with _ | f
    · exact (sc4 hfind).2
    · exact (sc3 f hfind).2
  rw [cfLoop_stopped _ hcl]
  exact ⟨sc2, fun f hf => (sc3 f hf).1, fun hf => (sc4 hf).1⟩

theorem cycle_focus_of_some (s : FMState) (P : List FNode) (cnode : FNode) (S : List FNode)
    (hsplit : s.nodes.reverse = P ++ cnode :: S)
    (hP : ∀ p ∈ P, p.idf ≠ cnode.idf)
    (hcur : aliveFocusId s = some cnode.idf) :
    (cycle_focus s).nodes = s.nodes ∧
    (∀ f, S.find? (fun m => m.can_focus) = some f →
      (cycle_focus s).current_focus = some f.idf) ∧
    (S.find? (fun m => m.can_focus) = none →
      (∀ g, (s.nodes.reverse).find? (fun m => m.can_focus) = some g →
        (cycle_focus s).current_focus = some g.idf) ∧
      ((s.nodes.reverse).find? (fun m => m.can_focus) = none →
        (cycle_focus s).current_focus = s.current_focus)) := by
  rw [cycle_focus_eq_two, hcur]
  have e1 : cfLoop 2 { fs := s, currentC := some cnode.idf, can_loop := true } =
      cfLoop 1 (cfBody { fs := s, currentC := some cnode.idf, can_loop := true }) := by
    rw [show (2 : Nat) = 1 + 1 from rfl, cfLoop_succ, if_pos rfl]
  rw [e1]
  obtain ⟨sc1, sc2, sc3, sc4⟩ := cfScan_some_spec cnode P S
    { fs := s, currentC := some cnode.idf, can_loop := false } rfl hP
  have hnotsome : ¬((cfScan (P ++ cnode :: S)
      { fs := s, currentC := some cnode.idf, can_loop := false }).currentC.isSome = true) := by
    rw [sc1]
    simp
  have hbody : cfBody { fs := s, currentC := some cnode.idf, can_loop := true } =
      cfScan (P ++ cnode :: S)
        { fs := s, currentC := some cnode.idf, can_loop := false } := by
    simp only [cfBody]
    rw [hsplit, if_neg hnotsome]
  rw [hbody]
  refine ⟨?_, ?_, ?_⟩
  · rcases hfindS : S.find? (fun m => m.can_focus) with _ | f
    · -- second iteration preserves nodes as well
      have hcl := (sc4 hfindS).2
      have e2 : cfLoop 1 (cfScan (P ++ cnode :: S)
          { fs := s, currentC := some cnode.idf, can_loop := false }) =
          cfBody (cfScan (P ++ cnode :: S)
            { fs := s, currentC := some cnode.idf, can_loop := false }) := by
        rw [show (1 : Nat) = 0 + 1 from rfl, cfLoop_succ, if_pos hcl]
        rfl
      rw [e2]
      obtain ⟨tc1, tc2, tc3, tc4⟩ := cfScan_none_spec
        (cfScan (P ++ cnode :: S)
          { fs := s, currentC := some cnode.idf, can_loop := false }).fs.nodes.reverse
        { cfScan (P ++ cnode :: S)
            { fs := s, currentC := some cnode.idf, can_loop := false } with
          can_loop := false } sc1
      have htnotsome : ¬((cfScan (cfScan (P ++ cnode :: S)
          { fs := s, currentC := some cnode.idf, can_loop := false }).fs.nodes.reverse
          { cfScan (P ++ cnode :: S)
              { fs := s, currentC := some cnode.idf, can_loop := false } with
            can_loop := false }).currentC.isSome = true) := by
        rw [tc1]
        simp
      have hbody2 : cfBody (cfScan (P ++ cnode :: S)
          { fs := s, currentC := some cnode.idf, can_loop := false }) =
          cfScan (cfScan (P ++ cnode :: S)
            { fs := s, currentC := some cnode.idf, can_loop := false }).fs.nodes.reverse
            { cfScan (P ++ cnode :: S)
                { fs := s, currentC := some cnode.idf, can_loop := false } with
              can_loop := false } := by
        simp only [cfBody]
        rw [if_neg htnotsome]
      rw [hbody2, tc2]
      exact sc2
    · have hcl := (sc3 f hfindS).2
      rw [cfLoop_stopped _ hcl]
      exact sc2
  · intro f hf
    have hcl := (sc3 f hf).2
    rw [cfLoop_stopped _ hcl]
    exact (sc3 f hf).1
  · intro hfindS
    have hcl := (sc4 hfindS).2
    have e2 : cfLoop 1 (cfScan (P ++ cnode :: S)
        { fs := s, currentC := some cnode.idf, can_loop := false }) =
        cfBody (cfScan (P ++ cnode :: S)
          { fs := s, currentC := some cnode.idf, can_loop := false }) := by
      rw [show (1 : Nat) = 0 + 1 from rfl, cfLoop_succ, if_pos hcl]
      rfl
    rw [e2]
    obtain ⟨tc1, tc2, tc3, tc4⟩ := cfScan_none_spec
      (cfScan (P ++ cnode :: S)
        { fs := s, currentC := some cnode.idf, can_loop := false }).fs.nodes.reverse
      { cfScan (P ++ cnode :: S)
          { fs := s, currentC := some cnode.idf, can_loop := false } with
        can_loop := false } sc1
    have htnotsome : ¬((cfScan (cfScan (P ++ cnode :: S)
        { fs := s, currentC := some cnode.idf, can_loop := false }).fs.nodes.reverse
        { cfScan (P ++ cnode :: S)
            { fs := s, currentC := some cnode.idf, can_loop := false } with
          can_loop := false }).currentC.isSome = true) := by
      rw [tc1]
      simp
    have hbody2 : cfBody (cfScan (P ++ cnode :: S)
        { fs := s, currentC := some cnode.idf, can_loop := false }) =
        cfScan (cfScan (P ++ cnode :: S)
          { fs := s, currentC := some cnode.idf, can_loop := false }).fs.nodes.reverse
          { cfScan (P ++ cnode :: S)
              { fs := s, currentC := some cnode.idf, can_loop := false } with
            can_loop := false } := by
      simp only [cfBody]
      rw [if_neg htnotsome]
    rw [hbody2]
    have hrevs : (cfScan (P ++ cnode :: S)
        { fs := s, currentC := some cnode.idf, can_loop := false }).fs.nodes.reverse =
        s.nodes.reverse := by
      rw [sc2]
    rw [hrevs] at tc3 tc4 ⊢
    constructor
    · intro g hg
      exact (tc3 g hg).1
    · intro hg
      rw [(tc4 hg).1]
      exact (sc4 hfindS).1

theorem mem_of_split (s : FMState) (P : List FNode) (cnode : FNode) (S : List FNode)
    (hsplit : s.nodes.reverse = P ++ cnode :: S) : cnode ∈ s.nodes := by
  rw [← List.mem_reverse, hsplit]
  simp

theorem alive_of_split (s : FMState) (P : List FNode) (cnode : FNode) (S : List FNode)
    (hsplit : s.nodes.reverse = P ++ cnode :: S)
    (hcur : s.current_focus = some cnode.idf) :
    aliveFocusId s = some cnode.idf := by
  have hmem : cnode ∈ s.nodes := mem_of_split s P cnode S hsplit
  have hany : s.nodes.any (fun m => m.idf == cnode.idf) = true := by
    rw [List.any_eq_true]
    refine ⟨cnode, hmem, ?_⟩
    simp
  rw [aliveFocusId, hcur]
  show (if s.nodes.any (fun m => m.idf == cnode.idf) = true then some cnode.idf else none) =
    some cnode.idf
  rw [if_pos hany]

theorem nodup_split_not_mem (P : List FNode) (cnode : FNode) (S : List FNode)
    (h : (idsOf (P ++ cnode :: S)).Nodup) :
    ∀ p ∈ P, p.idf ≠ cnode.idf := by
  intro p hp he
  rw [idsOf, List.map_append, List.map_cons] at h
  rcases List.nodup_append.mp h with ⟨-, -, hdisj⟩
  exact hdisj (List.mem_map_of_mem FNode.idf hp) (by rw [he]; exact List.mem_cons_self _ _)

theorem nodup_rev_of_split (s : FMState) (P : List FNode) (cnode : FNode) (S : List FNode)
    (hsplit : s.nodes.reverse = P ++ cnode :: S)
    (hnd : (idsOf s.nodes).Nodup) : (idsOf (P ++ cnode :: S)).Nodup := by
  rw [← hsplit, idsOf, List.map_reverse]
  exact List.nodup_reverse.mpr hnd

theorem cycle_iter (k : Nat) :
    ∀ (s : FMState) (P : List FNode) (cnode : FNode) (S : List FNode),
      s.nodes.reverse = P ++ cnode :: S →
      (idsOf s.nodes).Nodup →
      cnode.can_focus = true →
      s.current_focus = some cnode.idf →
      (S.filter (fun m => m.can_focus)).length = k →
      (cycle_focus^[k + 1] s).current_focus =
        ((s.nodes.reverse).find? (fun m => m.can_focus)).map FNode.idf := by
  induction k with
  | zero =>
    intro s P cnode S hsplit hnd hcf hcur hk
    have hP := nodup_split_not_mem P cnode S (nodup_rev_of_split s P cnode S hsplit hnd)
    have halive := alive_of_split s P cnode S hsplit hcur
    obtain ⟨hnodes, hfsome, hfnone⟩ := cycle_focus_of_some s P cnode S hsplit hP halive
    have hflt : S.filter (fun m => m.can_focus) = [] := by
      rcases hflt : S.filter (fun m => m.can_focus) with _ | ⟨x, xs⟩
      · exact hflt
      · rw [hflt] at hk
        simp at hk
    have hfindS : S.find? (fun m => m.can_focus) = none := by
      rw [find?_eq_filter_head, hflt]
      rfl
    rcases hfind : s.nodes.reverse.find? (fun m => m.can_focus) with _ | f
    · exfalso
      have hnone := List.find?_eq_none.mp hfind cnode
        (by rw [hsplit]; exact List.mem_append_right _ (List.mem_cons_self _ _))
      rw [hcf] at hnone
      exact hnone rfl
    · show (cycle_focus s).current_focus = _
      rw [hfind, (hfnone hfindS).1 f hfind]
      rfl
  | succ k ih =>
    intro s P cnode S hsplit hnd hcf hcur hk
    have hP := nodup_split_not_mem P cnode S (nodup_rev_of_split s P cnode S hsplit hnd)
    have halive := alive_of_split s P cnode S hsplit hcur
    obtain ⟨hnodes, hfsome, hfnone⟩ := cycle_focus_of_some s P cnode S hsplit hP halive
    rcases hflt : S.filter (fun m => m.can_focus) with _ | ⟨f₁, rest⟩
    · rw [hflt] at hk
      simp at hk
    obtain ⟨S₁, S₂, hsp, hfree, hf₁cf, hflt₂⟩ :=
      filter_split (fun m => m.can_focus) S f₁ rest hflt
    have hfindS : S.find? (fun m => m.can_focus) = some f₁ := by
      rw [find?_eq_filter_head, hflt]
      rfl
    have hcur₁ : (cycle_focus s).current_focus = some f₁.idf := hfsome f₁ hfindS
    have hsplit₁ : (cycle_focus s).nodes.reverse = (P ++ cnode :: S₁) ++ f₁ :: S₂ := by
      rw [hnodes, hsplit, hsp]
      simp
    have hnd₁ : (idsOf (cycle_focus s).nodes).Nodup := by
      rw [hnodes]
      exact hnd
    have hlen₂ : (S₂.filter (fun m => m.can_focus)).length = k := by
      rw [hflt₂]
      rw [hflt] at hk
      simpa using hk
    have hiter := ih (cycle_focus s) (P ++ cnode :: S₁) f₁ S₂ hsplit₁ hnd₁ hf₁cf hcur₁ hlen₂
    rw [Function.iterate_succ_apply, hiter, hnodes]

/-- C5: on a fixed tree of distinct nodes with no current focus, calling
`cycle_focus` N + 1 times — where N is the number of focusable nodes —
returns focus to the original focus target, the one acquired by the
first call: the focus cycles through the focusable nodes in reverse
query order and wraps around rather than sticking at the last one. -/
theorem c5_cycle_focus_cyclic (s : FMState)
    (hnd : (idsOf s.nodes).Nodup) (hcur : s.current_focus = none) :
    (cycle_focus^[(s.nodes.filter (fun m => m.can_focus)).length + 1] s).current_focus =
      (cycle_focus s).current_focus := by
  have halive : aliveFocusId s = none := by
    rw [aliveFocusId, hcur]
    rfl
  obtain ⟨hnodes1, hcf1some, hcf1none⟩ := cycle_focus_of_none s halive
  have hlen : (s.nodes.filter (fun m => m.can_focus)).length =
      (s.nodes.reverse.filter (fun m => m.can_focus)).length := by
    rw [List.filter_reverse, List.length_reverse]
  rcases hflt : s.nodes.reverse.filter (fun m => m.can_focus) with _ | ⟨f₁, rest⟩
  · have hN : (s.nodes.filter (fun m => m.can_focus)).length = 0 := by
      rw [hlen, hflt]
      rfl
    rw [hN]
    rfl
  · have hfind : s.nodes.reverse.find? (fun m => m.can_focus) = some f₁ := by
      rw [find?_eq_filter_head, hflt]
      rfl
    have hcf1' : (cycle_focus s).current_focus = some f₁.idf := hcf1some f₁ hfind
    obtain ⟨S₁, S₂, hsp, hfree, hf₁cf, hflt₂⟩ :=
      filter_split (fun m => m.can_focus) s.nodes.reverse f₁ rest hflt
    have hsplit₁ : (cycle_focus s).nodes.reverse = S₁ ++ f₁ :: S₂ := by
      rw [hnodes1, hsp]
    have hnd₁ : (idsOf (cycle_focus s).nodes).Nodup := by
      rw [hnodes1]
      exact hnd
    have hlen₂ : (S₂.filter (fun m => m.can_focus)).length = rest.length := by
      rw [hflt₂]
    have hiter := cycle_iter rest.length (cycle_focus s) S₁ f₁ S₂ hsplit₁ hnd₁ hf₁cf
      hcf1' hlen₂
    have hN : (s.nodes.filter (fun m => m.can_focus)).length = rest.length + 1 := by
      rw [hlen, hflt]
      simp
    rw [hN, Function.iterate_succ_apply, hiter, hnodes1, hfind, hcf1']
    rfl

/-- C5 witness: two focusable nodes with distinct ids and no initial
focus; N + 1 = 3 calls return to the first call's target. -/
def c5NodeA : FNode :=
  { idf := 1, can_focus := true, can_hover := false, on_focus := false,
    on_unfocus := false, on_mouse_move_over := false, on_mouse_move_out := false,
    on_mouse_move := false }

def c5NodeB : FNode :=
  { idf := 2, can_focus := true, can_hover := false, on_focus := false,
    on_unfocus := false, on_mouse_move_over := false, on_mouse_move_out := false,
    on_mouse_move := false }

def c5State : FMState :=
  { nodes := [c5NodeA, c5NodeB]
    current_focus := none
    last_hover := none
    focusedProp := fun _ => false
    hoverProp := fun _ => false
    eventsF := [] }

theorem c5_cycle_focus_cyclic_witness :
    (cycle_focus^[3] c5State).current_focus = (cycle_focus c5State).current_focus :=
  c5_cycle_focus_cyclic c5State (by decide) rfl

end StylishUI
